import Mathlib

/-!
Verification of `arrow/util/mutex.cc`.

A shallow embedding of `cpp/src/arrow/util/mutex.cc`:

* `arrow.util.Mutex`, `Mutex.Guard`, `Mutex.TryLock`, `Mutex.Lock` over an
  ideal `std::mutex` (`StdMutex`), with the objects of type `Mutex` living in a
  heap indexed by address;
* the fork-aware singleton `GlobalForkSafeMutex` as an interleaving of the
  atomic steps of its callers and of the child-side `pthread_atfork` hook; a
  fork is taken by a thread, at any moment, and that thread resumes in the
  child where it was.

Pointers are `Option Addr`: `none` is `nullptr`.
-/

namespace arrow.util

/-- An address of an object. -/
abbrev Addr := Nat

/-- How a call can fail to return normally: a failed `DCHECK` aborts the
process, `undefined` is C++ undefined behaviour (use of a dangling or null
pointer, `unlock` of a mutex that is not locked), `blocks` says that the
calling thread cannot proceed in the current state. -/
inductive Fault where
  | dcheck
  | undefined
  | blocks
  deriving DecidableEq, Repr

/-! ## `std::mutex` -/

/-- The state of a `std::mutex`: whether it is locked, and a ghost counter of
the `unlock()` calls made on it. -/
structure StdMutex where
  locked : Bool
  unlocks : Nat
  deriving DecidableEq, Repr

/-- Embeds `std::mutex::try_lock`: acquires the mutex iff it is free. -/
def StdMutex.try_lock (m : StdMutex) : Bool × StdMutex :=
  if m.locked then (false, m) else (true, { m with locked := true })

/-- Embeds `std::mutex::lock`: returns once the mutex has been acquired; on a locked
mutex the caller blocks. -/
def StdMutex.lock (m : StdMutex) : Except Fault StdMutex :=
  if m.locked then .error .blocks else .ok { m with locked := true }

/-- Embeds `std::mutex::unlock`: releases a locked mutex; undefined on a free one. -/
def StdMutex.unlock (m : StdMutex) : Except Fault StdMutex :=
  if m.locked then .ok { locked := false, unlocks := m.unlocks + 1 }
  else .error .undefined

/-! ## `Mutex` and `Mutex::Guard` -/

/-- Embeds `struct Mutex::Impl { std::mutex mutex_; }` -/
structure Mutex.Impl where
  mutex_ : StdMutex
  deriving DecidableEq, Repr

/-- Embeds `class Mutex`: the owning pointer `impl_` (`none` is a null `impl_`). -/
structure Mutex where
  impl_ : Option Mutex.Impl
  deriving DecidableEq, Repr

/-- Embeds `Mutex::Mutex() : impl_(new Impl, ...)`: a fresh, free `std::mutex`. -/
def Mutex.ctor : Mutex := ⟨some ⟨⟨false, 0⟩⟩⟩

/-- The objects of type `Mutex`, by address. -/
abbrev Heap := Addr → Option Mutex

/-- Write the object at address `a`. -/
def Heap.store (h : Heap) (a : Addr) (m : Mutex) : Heap :=
  fun x => if x = a then some m else h x

/-- Whether the `std::mutex` of the `Mutex` at `a` is locked. -/
def Heap.held (h : Heap) (a : Addr) : Bool :=
  match h a with
  | some ⟨some impl⟩ => impl.mutex_.locked
  | _ => false

/-- The ghost `unlock()` counter of the `Mutex` at `a`. -/
def Heap.unlocks (h : Heap) (a : Addr) : Nat :=
  match h a with
  | some ⟨some impl⟩ => impl.mutex_.unlocks
  | _ => 0

/-- Embeds `class Mutex::Guard`: the pointer held by `locked_`, whose deleter is
`Mutex.Guard.deleter`. A Guard is owning when `locked_` is not null. -/
structure Mutex.Guard where
  locked_ : Option Addr
  deriving DecidableEq, Repr

namespace Mutex

/-- Embeds `Mutex::Guard::Guard(Mutex* locked)`: `locked_(locked, deleter)`. -/
def Guard.ctor (locked : Option Addr) : Guard := ⟨locked⟩

/-- Modelled from the spec: the default constructor `Guard()` of the header
`arrow/util/mutex.h`, "Default-constructible in the empty state (no
ownership), used as the failed TryLock result". -/
def Guard.empty : Guard := ⟨none⟩

/-- The deleter given to `locked_` by `Guard::Guard(Mutex* locked)`:
`DCHECK(!locked->impl_->mutex_.try_lock()); locked->impl_->mutex_.unlock();`.
The condition of a `DCHECK` is evaluated in debug builds only. -/
def Guard.deleter (debug : Bool) (locked : Addr) (h : Heap) : Except Fault Heap :=
  match h locked with
  | none => .error .undefined
  | some self =>
    match self.impl_ with
    | none => .error .undefined
    | some impl =>
      let checked : Except Fault StdMutex :=
        if debug then
          let r := impl.mutex_.try_lock
          if r.1 then .error .dcheck else .ok r.2
        else .ok impl.mutex_
      match checked with
      | .error f => .error f
      | .ok mu =>
        match mu.unlock with
        | .error f => .error f
        | .ok mu1 => .ok (h.store locked ⟨some ⟨mu1⟩⟩)

/-- Modelled from the spec: the destructor of a Guard, that of the owning
pointer `locked_` declared in `arrow/util/mutex.h`: "On destruction: if
owning, releases the bound Lock exactly once", by running the deleter on a
non-null `locked_`. -/
def Guard.destroy (debug : Bool) (g : Guard) (h : Heap) : Except Fault Heap :=
  match g.locked_ with
  | none => .ok h
  | some locked => Guard.deleter debug locked h

/-- Embeds `DCHECK_NE(impl_, nullptr)` followed by the use of `impl_->mutex_`: a null
`impl_` aborts a debug build and is undefined otherwise. -/
def getImpl (debug : Bool) (self : Mutex) : Except Fault Impl :=
  match self.impl_ with
  | none => .error (if debug then .dcheck else .undefined)
  | some impl => .ok impl

/-- Embeds `Mutex::Guard Mutex::TryLock()` on the object at address `this`. -/
def TryLock (debug : Bool) (this : Addr) (h : Heap) : Except Fault (Guard × Heap) :=
  match h this with
  | none => .error .undefined
  | some self =>
    match getImpl debug self with
    | .error f => .error f
    | .ok impl =>
      let r := impl.mutex_.try_lock
      let h1 := h.store this ⟨some ⟨r.2⟩⟩
      if r.1 then .ok (Guard.ctor (some this), h1) else .ok (Guard.empty, h1)

/-- Embeds `Mutex::Guard Mutex::Lock()` on the object at address `this`. -/
def Lock (debug : Bool) (this : Addr) (h : Heap) : Except Fault (Guard × Heap) :=
  match h this with
  | none => .error .undefined
  | some self =>
    match getImpl debug self with
    | .error f => .error f
    | .ok impl =>
      match impl.mutex_.lock with
      | .error f => .error f
      | .ok mu => .ok (Guard.ctor (some this), h.store this ⟨some ⟨mu⟩⟩)

end Mutex

/-! ## Clients of a set of Mutexes -/

/-- The atomic steps of the threads that use the Mutexes: construction of a
Mutex at a free address, a `Lock()` that returns, a `TryLock()`, and the
destruction of the live Guard at position `i`. -/
inductive MutexEvent where
  | construct (a : Addr)
  | lock (m : Addr)
  | tryLock (m : Addr)
  | destroy (i : Nat)
  deriving DecidableEq, Repr

/-- The Mutexes, the Guards that are alive (each obtained from `Lock` or
`TryLock` and not destroyed yet), and the fault that stopped the process. -/
structure Sys where
  heap : Heap
  guards : List Mutex.Guard
  fault : Option Fault

/-- No Mutex, no Guard. -/
def Sys.init : Sys := ⟨fun _ => none, [], none⟩

/-- One step. An event that cannot happen in the state (an address that holds
no Mutex, a `Lock()` on a held mutex, which does not return, a Guard that
does not exist, a process that has stopped) leaves the state as it is. -/
def Sys.step (debug : Bool) (s : Sys) (e : MutexEvent) : Sys :=
  match s.fault with
  | some _ => s
  | none =>
    match e with
    | .construct a =>
      match s.heap a with
      | none => { s with heap := s.heap.store a Mutex.ctor }
      | some _ => s
    | .lock m =>
      match s.heap m with
      | none => s
      | some _ =>
        match Mutex.Lock debug m s.heap with
        | .ok r => { s with heap := r.2, guards := s.guards ++ [r.1] }
        | .error .blocks => s
        | .error f => { s with fault := some f }
    | .tryLock m =>
      match s.heap m with
      | none => s
      | some _ =>
        match Mutex.TryLock debug m s.heap with
        | .ok r => { s with heap := r.2, guards := s.guards ++ [r.1] }
        | .error f => { s with fault := some f }
    | .destroy i =>
      match s.guards[i]? with
      | none => s
      | some g =>
        match g.destroy debug s.heap with
        | .ok h => { s with heap := h, guards := s.guards.eraseIdx i }
        | .error f => { s with guards := s.guards.eraseIdx i, fault := some f }

/-- The state after a sequence of steps. -/
def Sys.exec (debug : Bool) (s : Sys) (evs : List MutexEvent) : Sys :=
  evs.foldl (Sys.step debug) s

/-! ## `AfterForkState` and `GlobalForkSafeMutex` -/

/-- Embeds `enum AfterForkState::State { INITIALIZED, IN_PROCESS, NOT_INITIALIZED }`,
the values of the atomic `state`. -/
inductive AfterForkState.State where
  | INITIALIZED
  | IN_PROCESS
  | NOT_INITIALIZED
  deriving DecidableEq, Repr

/-- Embeds `struct AfterForkState`, with the default member initialisers of the
source: `Mutex* mutex = nullptr;` and `std::atomic_int state = INITIALIZED;`. -/
structure AfterForkState where
  mutex : Option Addr := none
  state : AfterForkState.State := .INITIALIZED
  deriving DecidableEq, Repr

/-- Embeds `AfterForkState AfterForkState::instance;`: the statically initialised
global. Its constructor only registers the `pthread_atfork` child hook. -/
def AfterForkState.staticInstance : AfterForkState := {}

/-- Embeds `static void AfterFork() { instance.state.store(NOT_INITIALIZED); }` -/
def AfterForkState.AfterFork (inst : AfterForkState) : AfterForkState :=
  { inst with state := .NOT_INITIALIZED }

/-- A thread identifier. -/
abbrev Tid := Nat

/-- Where a thread stands in `GlobalForkSafeMutex`: `idle` is outside of it,
the other values name the next atomic action of the thread. -/
inductive Pc where
  /-- Outside the function; a call starts with the load of line 91. -/
  | idle
  /-- Line 92: `return AfterForkState::instance.mutex;` -/
  | fastReturn
  /-- Lines 95-96: `compare_exchange_strong(expected, IN_PROCESS)`. -/
  | atCas
  /-- Line 97, after a successful exchange: `new Mutex`. -/
  | won
  /-- Line 97: the store of the new pointer `a` to `instance.mutex`. -/
  | built (a : Addr)
  /-- Line 98: `state.store(INITIALIZED)`. -/
  | stored
  /-- Line 100, after a failed exchange: `while (state.load() != INITIALIZED);` -/
  | spin
  /-- Line 103: `return AfterForkState::instance.mutex;` -/
  | slowReturn
  deriving DecidableEq, Repr

/-- The thread is between its successful exchange and its store of
`INITIALIZED`. -/
def Pc.isWinner : Pc → Bool
  | .won => true
  | .built _ => true
  | .stored => true
  | _ => false

/-- The atomic steps: those of a thread `t` inside `GlobalForkSafeMutex`
(`newMutex t a` is the `new Mutex` of `t` returning address `a`), and
`fork t`: thread `t` forks the process and the execution followed is that of
the child, where the hook `AfterFork` runs. Thread `t` may fork at any
moment, also in the middle of a call (from a signal handler). -/
inductive Event where
  | load (t : Tid)
  | fastReturn (t : Tid)
  | cas (t : Tid)
  | newMutex (t : Tid) (a : Addr)
  | storeMutex (t : Tid)
  | publish (t : Tid)
  | spin (t : Tid)
  | slowReturn (t : Tid)
  | fork (t : Tid)
  deriving DecidableEq, Repr

/-- The thread that performs a step of `GlobalForkSafeMutex`; none for the
fork hook. -/
def Event.caller : Event → Option Tid
  | .load t => some t
  | .fastReturn t => some t
  | .cas t => some t
  | .newMutex t _ => some t
  | .storeMutex t => some t
  | .publish t => some t
  | .spin t => some t
  | .slowReturn t => some t
  | .fork _ => none

/-- Whether the step is a fork. -/
def Event.isFork : Event → Bool
  | .fork _ => true
  | _ => false

/-- A call that has returned: the epoch of the return, the epoch in which the
call began, the calling thread and the pointer returned. -/
structure Ret where
  epoch : Nat
  start : Nat
  thread : Tid
  ptr : Option Addr
  deriving DecidableEq, Repr

/-- The process: the global `AfterForkState::instance`, the place of every
thread, and ghost state: for every thread the epoch in which its current call
began, the number of the process epoch (the forks so far), the Mutexes
constructed by `GlobalForkSafeMutex` (none is ever deleted), each with the
epoch of its construction, and the calls that have returned (latest first). -/
structure World where
  inst : AfterForkState
  pc : Tid → Pc
  start : Tid → Nat
  epoch : Nat
  heap : List (Nat × Addr)
  returned : List Ret

/-- The process at start-up: the static instance, every thread outside the
function, nothing constructed. -/
def World.init : World :=
  { inst := AfterForkState.staticInstance, pc := fun _ => .idle, start := fun _ => 0,
    epoch := 0, heap := [], returned := [] }

/-- Move thread `t` to `p`. -/
def World.setPc (w : World) (t : Tid) (p : Pc) : World :=
  { w with pc := fun x => if x = t then p else w.pc x }

/-- Thread `t` begins a call and moves to `p`. -/
def World.enter (w : World) (t : Tid) (p : Pc) : World :=
  { w with pc := fun x => if x = t then p else w.pc x,
           start := fun x => if x = t then w.epoch else w.start x }

/-- The return of `instance.mutex` by thread `t` (lines 92 and 103). -/
def World.doReturn (w : World) (t : Tid) : World :=
  { w with returned := ⟨w.epoch, w.start t, t, w.inst.mutex⟩ :: w.returned,
           pc := fun x => if x = t then .idle else w.pc x }

/-- One atomic step of `GlobalForkSafeMutex` or of the fork hook. A step that
is not the next action of its thread, or a `new` returning the address of a
live Mutex, cannot happen and leaves the state as it is. In the child of a
fork only the forking thread exists, and it resumes where it was: the other
threads of the child are new ones, outside the function. -/
def World.step (w : World) : Event → World
  | .load t =>
    if w.pc t = .idle then
      if w.inst.state = .INITIALIZED then w.enter t .fastReturn else w.enter t .atCas
    else w
  | .fastReturn t =>
    if w.pc t = .fastReturn then w.doReturn t else w
  | .cas t =>
    if w.pc t = .atCas then
      if w.inst.state = .NOT_INITIALIZED then
        { w with inst := { w.inst with state := .IN_PROCESS },
                 pc := fun x => if x = t then .won else w.pc x }
      else w.setPc t .spin
    else w
  | .newMutex t a =>
    if w.pc t = .won ∧ a ∉ w.heap.map Prod.snd then
      { w with heap := (w.epoch, a) :: w.heap,
               pc := fun x => if x = t then .built a else w.pc x }
    else w
  | .storeMutex t =>
    match w.pc t with
    | .built a =>
      { w with inst := { w.inst with mutex := some a },
               pc := fun x => if x = t then .stored else w.pc x }
    | _ => w
  | .publish t =>
    if w.pc t = .stored then
      { w with inst := { w.inst with state := .INITIALIZED },
               pc := fun x => if x = t then .slowReturn else w.pc x }
    else w
  | .spin t =>
    if w.pc t = .spin then
      if w.inst.state ≠ .INITIALIZED then w else w.setPc t .slowReturn
    else w
  | .slowReturn t =>
    if w.pc t = .slowReturn then w.doReturn t else w
  | .fork t =>
    { w with inst := w.inst.AfterFork,
             pc := fun x => if x = t then w.pc t else .idle,
             epoch := w.epoch + 1 }

/-- The state after a sequence of steps. -/
def World.exec (w : World) (evs : List Event) : World :=
  evs.foldl World.step w

/-- The state reached in the child of a fork taken by thread `t` in state `w`,
after the steps `post`. -/
def World.afterFork (w : World) (t : Tid) (post : List Event) : World :=
  (w.step (.fork t)).exec post

/-- The three transitions of the state tag that the specification allows. -/
def specTransition : AfterForkState.State → AfterForkState.State → Bool
  | .NOT_INITIALIZED, .IN_PROCESS => true
  | .IN_PROCESS, .INITIALIZED => true
  | .INITIALIZED, .NOT_INITIALIZED => true
  | _, _ => false

/-- The number of Mutexes that `GlobalForkSafeMutex` has constructed in epoch
`e`. -/
def World.constructions (w : World) (e : Nat) : Nat :=
  (w.heap.filter (fun y => y.1 = e)).length

/-! ## Invariants -/

/-- The invariant of the clients of a set of Mutexes: the process has not
stopped, every constructed Mutex has its `impl_`, and the live Guards bound to
a Mutex are one if its `std::mutex` is locked and none otherwise. -/
structure SysInv (s : Sys) : Prop where
  fault : s.fault = none
  impl : ∀ m M, s.heap m = some M → ∃ impl : Mutex.Impl, M = ⟨some impl⟩
  count : ∀ m, s.guards.count ⟨some m⟩ = if s.heap.held m then 1 else 0

/-- The invariant of every reachable state of the singleton, whatever the
forks taken. -/
structure Inv (w : World) : Prop where
  heap_epoch : ∀ x ∈ w.heap, x.1 ≤ w.epoch
  heap_uniq : ∀ x ∈ w.heap, ∀ y ∈ w.heap, x.2 = y.2 → x.1 = y.1
  mutex_heap : ∀ a, w.inst.mutex = some a → a ∈ w.heap.map Prod.snd
  ret_epoch : ∀ r ∈ w.returned, r.epoch ≤ w.epoch
  ret_heap : ∀ r ∈ w.returned, ∀ a, r.ptr = some a → a ∈ w.heap.map Prod.snd
  built_heap : ∀ t a, w.pc t = .built a → a ∈ w.heap.map Prod.snd
  start_le : ∀ t, w.start t ≤ w.epoch
  init_nonnull : 0 < w.epoch → w.inst.state = .INITIALIZED → w.inst.mutex ≠ none
  stored_nonnull : ∀ t, w.pc t = .stored → w.inst.mutex ≠ none
  pc_nonnull : ∀ t, (w.pc t = .fastReturn ∨ w.pc t = .slowReturn) → 0 < w.start t →
    w.inst.mutex ≠ none
  ret_nonnull : ∀ r ∈ w.returned, 0 < r.start → r.ptr ≠ none
  win_tag : ∀ t, (w.pc t).isWinner = true → w.start t = w.epoch →
    w.inst.state ≠ .NOT_INITIALIZED

/-- The invariant of an epoch in which no call is carried over from before
the fork: the initial epoch, and an epoch begun by a fork taken outside of
`GlobalForkSafeMutex`. -/
structure Clean (w : World) : Prop where
  ret_cur : ∀ r ∈ w.returned, r.epoch = w.epoch →
    r.ptr = w.inst.mutex ∧ w.inst.state = .INITIALIZED
  pc_ret : ∀ t, (w.pc t = .fastReturn ∨ w.pc t = .slowReturn) → w.inst.state = .INITIALIZED
  pc_win : ∀ t, (w.pc t).isWinner = true → w.inst.state = .IN_PROCESS
  win_uniq : ∀ t u, (w.pc t).isWinner = true → (w.pc u).isWinner = true → t = u
  init_heap : 0 < w.epoch → w.inst.state = .INITIALIZED →
    ∃ a, w.inst.mutex = some a ∧ (w.epoch, a) ∈ w.heap
  stored_heap : ∀ t, w.pc t = .stored → ∃ a, w.inst.mutex = some a ∧ (w.epoch, a) ∈ w.heap
  built_cur : ∀ t a, w.pc t = .built a → (w.epoch, a) ∈ w.heap
  k_fresh : w.inst.state = .NOT_INITIALIZED → w.constructions w.epoch = 0
  k_won : ∀ t, w.pc t = .won → w.constructions w.epoch = 0
  k_built : ∀ t a, w.pc t = .built a → w.constructions w.epoch = 1
  k_stored : ∀ t, w.pc t = .stored → w.constructions w.epoch = 1
  k_done : 0 < w.epoch → w.inst.state = .INITIALIZED → w.constructions w.epoch = 1

/-- What holds as long as the process has not forked: the global is as
statically initialised, no Mutex has been constructed, and every thread is
outside the function or on its fast path; and, for ever, the calls that
returned before the first fork returned the null pointer. -/
structure InvInitial (w : World) : Prop where
  start : w.epoch = 0 → w.inst = AfterForkState.staticInstance ∧ w.heap = [] ∧
    ∀ t, w.pc t = .idle ∨ w.pc t = .fastReturn
  rets : ∀ r ∈ w.returned, r.epoch = 0 → r.ptr = none

/-! ## Facts about the heap and the operations of a Mutex -/

theorem Heap.store_same (h : Heap) (a : Addr) (m : Mutex) : (h.store a m) a = some m := by
  simp [Heap.store]

theorem Heap.store_other (h : Heap) (a x : Addr) (m : Mutex) (hx : x ≠ a) :
    (h.store a m) x = h x := by
  simp [Heap.store, hx]

theorem Heap.store_self (h : Heap) (a : Addr) (m : Mutex) (ha : h a = some m) :
    h.store a m = h := by
  funext x
  by_cases hx : x = a
  · subst hx; simp [Heap.store, ha]
  · simp [Heap.store, hx]

theorem Heap.held_store_same (h : Heap) (a : Addr) (mu : StdMutex) :
    (h.store a ⟨some ⟨mu⟩⟩).held a = mu.locked := by
  simp [Heap.held, Heap.store]

theorem Heap.held_store_other (h : Heap) (a x : Addr) (m : Mutex) (hx : x ≠ a) :
    (h.store a m).held x = h.held x := by
  simp [Heap.held, Heap.store, hx]

theorem Heap.unlocks_store_same (h : Heap) (a : Addr) (mu : StdMutex) :
    (h.store a ⟨some ⟨mu⟩⟩).unlocks a = mu.unlocks := by
  simp [Heap.unlocks, Heap.store]

theorem Heap.held_of_lookup (h : Heap) (a : Addr) (impl : Mutex.Impl)
    (ha : h a = some ⟨some impl⟩) : h.held a = impl.mutex_.locked := by
  simp [Heap.held, ha]

theorem Heap.unlocks_of_lookup (h : Heap) (a : Addr) (impl : Mutex.Impl)
    (ha : h a = some ⟨some impl⟩) : h.unlocks a = impl.mutex_.unlocks := by
  simp [Heap.unlocks, ha]

/-- A held Mutex is one that has been constructed and whose `impl_` is set. -/
theorem Heap.lookup_of_held (h : Heap) (a : Addr) (ha : h.held a = true) :
    ∃ impl : Mutex.Impl, h a = some ⟨some impl⟩ ∧ impl.mutex_.locked = true := by
  unfold Heap.held at ha
  split at ha
  · next impl heq => exact ⟨impl, heq, ha⟩
  · simp at ha

namespace Mutex

theorem TryLock_held (debug : Bool) (this : Addr) (h : Heap) (impl : Impl)
    (hthis : h this = some ⟨some impl⟩) (hl : impl.mutex_.locked = true) :
    TryLock debug this h = .ok (Guard.empty, h) := by
  have hs : h.store this ⟨some ⟨impl.mutex_⟩⟩ = h := Heap.store_self h this _ hthis
  simp [TryLock, hthis, getImpl, StdMutex.try_lock, hl, hs]

theorem TryLock_free (debug : Bool) (this : Addr) (h : Heap) (impl : Impl)
    (hthis : h this = some ⟨some impl⟩) (hl : impl.mutex_.locked = false) :
    TryLock debug this h
      = .ok (⟨some this⟩, h.store this ⟨some ⟨{ impl.mutex_ with locked := true }⟩⟩) := by
  simp [TryLock, hthis, getImpl, StdMutex.try_lock, hl, Guard.ctor]

theorem Lock_held (debug : Bool) (this : Addr) (h : Heap) (impl : Impl)
    (hthis : h this = some ⟨some impl⟩) (hl : impl.mutex_.locked = true) :
    Lock debug this h = .error .blocks := by
  simp [Lock, hthis, getImpl, StdMutex.lock, hl]

theorem Lock_free (debug : Bool) (this : Addr) (h : Heap) (impl : Impl)
    (hthis : h this = some ⟨some impl⟩) (hl : impl.mutex_.locked = false) :
    Lock debug this h
      = .ok (⟨some this⟩, h.store this ⟨some ⟨{ impl.mutex_ with locked := true }⟩⟩) := by
  simp [Lock, hthis, getImpl, StdMutex.lock, hl, Guard.ctor]

/-- Whatever the heap, a `Lock()` that returns hands out a Guard bound to
`this`, found the mutex free and leaves it locked. -/
theorem Lock_ok (debug : Bool) (this : Addr) (h h1 : Heap) (g : Guard)
    (hr : Lock debug this h = .ok (g, h1)) :
    g = ⟨some this⟩ ∧ h1.held this = true ∧ h.held this = false := by
  unfold Lock at hr
  split at hr
  · simp at hr
  · next self hself =>
    unfold getImpl at hr
    cases hi : self.impl_ with
    | none => simp [hi] at hr
    | some impl =>
      have hthis : h this = some ⟨some impl⟩ := by rw [hself, ← hi]
      cases hl : impl.mutex_.locked with
      | true => simp [hi, StdMutex.lock, hl] at hr
      | false =>
        simp [hi, StdMutex.lock, hl, Guard.ctor] at hr
        obtain ⟨hg, hh⟩ := hr
        subst hg; subst hh
        refine ⟨rfl, ?_, ?_⟩
        · rw [Heap.held_store_same]
        · rw [Heap.held_of_lookup h this impl hthis, hl]

theorem deleter_held (debug : Bool) (m : Addr) (h : Heap) (impl : Impl)
    (hm : h m = some ⟨some impl⟩) (hl : impl.mutex_.locked = true) :
    Guard.deleter debug m h
      = .ok (h.store m ⟨some ⟨⟨false, impl.mutex_.unlocks + 1⟩⟩⟩) := by
  cases debug <;> simp [Guard.deleter, hm, StdMutex.try_lock, StdMutex.unlock, hl]

theorem deleter_free_debug (m : Addr) (h : Heap) (impl : Impl)
    (hm : h m = some ⟨some impl⟩) (hl : impl.mutex_.locked = false) :
    Guard.deleter true m h = .error .dcheck := by
  simp [Guard.deleter, hm, StdMutex.try_lock, hl]

end Mutex

/-- Erasing position `i` of a list removes one occurrence of the element that
was there and none of the others. -/
theorem count_eraseIdx_of_getElem? {α : Type} [DecidableEq α] (x g : α) :
    ∀ (l : List α) (i : Nat), l[i]? = some g →
      (l.eraseIdx i).count x = l.count x - (if g = x then 1 else 0)
  | [], i, hg => by simp at hg
  | a :: l, 0, hg => by
    simp at hg
    subst hg
    by_cases hx : a = x
    · subst hx; simp
    · simp [List.count_cons, hx]
  | a :: l, i + 1, hg => by
    simp at hg
    have ih := count_eraseIdx_of_getElem? x g l i hg
    have hpos : (if g = x then 1 else 0) ≤ l.count x := by
      by_cases hx : g = x
      · subst hx
        have hmem : g ∈ l := List.getElem?_mem hg
        simpa using List.count_pos_iff.mpr hmem
      · simp [hx]
    simp only [List.eraseIdx_cons_succ, List.count_cons, ih]
    omega

theorem SysInv.of_init : SysInv Sys.init :=
  ⟨rfl, by simp [Sys.init], by simp [Sys.init, Heap.held]⟩

theorem SysInv.held_of_mem {s : Sys} (hinv : SysInv s) (m : Addr)
    (hg : (⟨some m⟩ : Mutex.Guard) ∈ s.guards) : s.heap.held m = true := by
  have hc := hinv.count m
  have hpos : 0 < s.guards.count ⟨some m⟩ := List.count_pos_iff.mpr hg
  by_contra hh
  simp [hh] at hc
  omega

theorem SysInv.of_step (debug : Bool) (s : Sys) (e : MutexEvent) (hinv : SysInv s) :
    SysInv (Sys.step debug s e) := by
  obtain ⟨hf, hi, hc⟩ := hinv
  have hstore : ∀ (m : Addr) (mu : StdMutex) (x : Addr) (M : Mutex),
      (s.heap.store m ⟨some ⟨mu⟩⟩) x = some M → ∃ impl : Mutex.Impl, M = ⟨some impl⟩ := by
    intro m mu x M hx
    by_cases hxm : x = m
    · subst hxm
      simp [Heap.store] at hx
      exact ⟨_, hx.symm⟩
    · simp [Heap.store, hxm] at hx
      exact hi x M hx
  have hne : ∀ m x : Addr, x ≠ m → (⟨some m⟩ : Mutex.Guard) ≠ ⟨some x⟩ := by
    intro m x hxm h
    injection h with h
    injection h with h
    exact hxm h.symm
  cases e with
  | construct a =>
    cases ha : s.heap a with
    | some M =>
      simp only [Sys.step, hf, ha]
      exact ⟨hf, hi, hc⟩
    | none =>
      simp only [Sys.step, hf, ha]
      refine ⟨rfl, hstore a _, ?_⟩
      intro m
      by_cases hma : m = a
      · subst hma
        have h0 := hc m
        simp [Heap.held, ha] at h0
        simp [Heap.held, Heap.store, Mutex.ctor, h0]
      · simpa [Heap.held_store_other _ _ _ _ hma] using hc m
  | lock m =>
    cases hm : s.heap m with
    | none =>
      simp only [Sys.step, hf, hm]
      exact ⟨hf, hi, hc⟩
    | some M =>
      obtain ⟨impl, hM⟩ := hi m M hm
      subst hM
      cases hl : impl.mutex_.locked with
      | true =>
        simp only [Sys.step, hf, hm, Mutex.Lock_held debug m s.heap impl hm hl]
        exact ⟨hf, hi, hc⟩
      | false =>
        simp only [Sys.step, hf, hm, Mutex.Lock_free debug m s.heap impl hm hl]
        refine ⟨rfl, hstore m _, ?_⟩
        intro x
        by_cases hxm : x = m
        · subst hxm
          have h0 := hc x
          rw [Heap.held_of_lookup _ _ _ hm, hl] at h0
          simp [Heap.held_store_same, h0]
        · simp [Heap.held_store_other _ _ _ _ hxm, hc x, List.count_cons, hne m x hxm]
  | tryLock m =>
    cases hm : s.heap m with
    | none =>
      simp only [Sys.step, hf, hm]
      exact ⟨hf, hi, hc⟩
    | some M =>
      obtain ⟨impl, hM⟩ := hi m M hm
      subst hM
      cases hl : impl.mutex_.locked with
      | true =>
        simp only [Sys.step, hf, hm, Mutex.TryLock_held debug m s.heap impl hm hl]
        refine ⟨rfl, hi, ?_⟩
        intro x
        simp [Mutex.Guard.empty, hc x, List.count_cons]
      | false =>
        simp only [Sys.step, hf, hm, Mutex.TryLock_free debug m s.heap impl hm hl]
        refine ⟨rfl, hstore m _, ?_⟩
        intro x
        by_cases hxm : x = m
        · subst hxm
          have h0 := hc x
          rw [Heap.held_of_lookup _ _ _ hm, hl] at h0
          simp [Heap.held_store_same, h0]
        · simp [Heap.held_store_other _ _ _ _ hxm, hc x, List.count_cons, hne m x hxm]
  | destroy i =>
    cases hg : s.guards[i]? with
    | none =>
      simp only [Sys.step, hf, hg]
      exact ⟨hf, hi, hc⟩
    | some g =>
      obtain ⟨ptr⟩ := g
      cases ptr with
      | none =>
        simp only [Sys.step, hf, hg, Mutex.Guard.destroy]
        refine ⟨rfl, hi, ?_⟩
        intro x
        simp [count_eraseIdx_of_getElem? _ _ _ _ hg, hc x]
      | some m =>
        have hheld : s.heap.held m = true :=
          SysInv.held_of_mem ⟨hf, hi, hc⟩ m (List.getElem?_mem hg)
        obtain ⟨impl, hm, hl⟩ := Heap.lookup_of_held _ _ hheld
        simp only [Sys.step, hf, hg, Mutex.Guard.destroy,
          Mutex.deleter_held debug m s.heap impl hm hl]
        refine ⟨rfl, hstore m _, ?_⟩
        intro x
        by_cases hxm : x = m
        · subst hxm
          simp [count_eraseIdx_of_getElem? _ _ _ _ hg, hc x, hheld, Heap.held_store_same]
        · simp [count_eraseIdx_of_getElem? _ _ _ _ hg, hc x, hne m x hxm,
            Heap.held_store_other _ _ _ _ hxm]

theorem SysInv.of_exec (debug : Bool) (evs : List MutexEvent) :
    ∀ s : Sys, SysInv s → SysInv (Sys.exec debug s evs) := by
  induction evs with
  | nil => intro s hs; exact hs
  | cons e evs ih =>
    intro s hs
    exact ih _ (SysInv.of_step debug s e hs)

theorem SysInv.of_reachable (debug : Bool) (evs : List MutexEvent) :
    SysInv (Sys.exec debug Sys.init evs) :=
  SysInv.of_exec debug evs _ SysInv.of_init

/-! ## The invariant of the singleton -/

theorem Inv.at_init : Inv World.init := by
  constructor <;> simp [World.init, AfterForkState.staticInstance, Pc.isWinner]

/-- Moving a thread to a place that is neither between exchange and publish
nor, unless the tag is `INITIALIZED`, a return, keeps the invariant, whether
the move begins a call or not. -/
theorem Inv.move {w : World} (hinv : Inv w) (t : Tid) (p : Pc) (st : Tid → Nat)
    (hst : ∀ x, x ≠ t → st x = w.start x) (hle : st t ≤ w.epoch)
    (hp : p.isWinner = false)
    (hr : (p = .fastReturn ∨ p = .slowReturn) → w.inst.state = .INITIALIZED) :
    Inv { w with pc := fun x => if x = t then p else w.pc x, start := st } := by
  obtain ⟨h1, h2, h3, h4, h5, h6, h7, h8, h9, h10, h11, h12⟩ := hinv
  refine ⟨h1, h2, h3, h4, h5, ?_, ?_, h8, ?_, ?_, h11, ?_⟩
  · intro x a hx
    by_cases hxt : x = t
    · simp [hxt] at hx
      subst hx
      simp [Pc.isWinner] at hp
    · simp [hxt] at hx
      exact h6 x a hx
  · intro x
    by_cases hxt : x = t
    · rw [hxt]; exact hle
    · show st x ≤ w.epoch
      rw [hst x hxt]; exact h7 x
  · intro x hx
    by_cases hxt : x = t
    · simp [hxt] at hx
      subst hx
      simp [Pc.isWinner] at hp
    · simp [hxt] at hx
      exact h9 x hx
  · intro x hx hpos
    by_cases hxt : x = t
    · simp [hxt] at hx
      have hpos2 : 0 < st t := by rw [hxt] at hpos; exact hpos
      exact h8 (Nat.lt_of_lt_of_le hpos2 hle) (hr hx)
    · simp [hxt] at hx
      have hpos2 : 0 < w.start x := by
        have : 0 < st x := hpos
        rw [hst x hxt] at this; exact this
      exact h10 x hx hpos2
  · intro x hx hs
    by_cases hxt : x = t
    · simp [hxt, hp] at hx
    · simp [hxt] at hx
      have hs2 : w.start x = w.epoch := by
        have : st x = w.epoch := hs
        rw [hst x hxt] at this; exact this
      exact h12 x hx hs2

theorem Inv.setPc {w : World} (hinv : Inv w) (t : Tid) (p : Pc)
    (hp : p.isWinner = false)
    (hr : (p = .fastReturn ∨ p = .slowReturn) → w.inst.state = .INITIALIZED) :
    Inv (w.setPc t p) :=
  Inv.move hinv t p w.start (fun _ _ => rfl) (hinv.start_le t) hp hr

theorem Inv.enter {w : World} (hinv : Inv w) (t : Tid) (p : Pc)
    (hp : p.isWinner = false)
    (hr : (p = .fastReturn ∨ p = .slowReturn) → w.inst.state = .INITIALIZED) :
    Inv (w.enter t p) :=
  Inv.move hinv t p (fun x => if x = t then w.epoch else w.start x)
    (fun x hx => by simp [hx]) (by simp) hp hr

/-- A return keeps the invariant. -/
theorem Inv.doReturn {w : World} (hinv : Inv w) (t : Tid)
    (ht : w.pc t = .fastReturn ∨ w.pc t = .slowReturn) : Inv (w.doReturn t) := by
  have hbase : Inv (w.setPc t .idle) := Inv.setPc hinv t .idle rfl (by simp)
  obtain ⟨h1, h2, h3, h4, h5, h6, h7, h8, h9, h10, h11, h12⟩ := hbase
  refine ⟨h1, h2, h3, ?_, ?_, h6, h7, h8, h9, h10, ?_, h12⟩
  · intro r hr
    simp only [World.doReturn, List.mem_cons] at hr
    rcases hr with hr | hr
    · subst hr; exact Nat.le_refl _
    · exact hinv.ret_epoch r hr
  · intro r hr a ha
    simp only [World.doReturn, List.mem_cons] at hr
    rcases hr with hr | hr
    · subst hr; exact hinv.mutex_heap a ha
    · exact hinv.ret_heap r hr a ha
  · intro r hr hpos
    simp only [World.doReturn, List.mem_cons] at hr
    rcases hr with hr | hr
    · subst hr; exact hinv.pc_nonnull t ht hpos
    · exact hinv.ret_nonnull r hr hpos

/-- A successful exchange keeps the invariant. -/
theorem Inv.casWin {w : World} (hinv : Inv w) (t : Tid) :
    Inv { w with inst := { w.inst with state := .IN_PROCESS },
                 pc := fun x => if x = t then .won else w.pc x } := by
  obtain ⟨h1, h2, h3, h4, h5, h6, h7, h8, h9, h10, h11, h12⟩ := hinv
  refine ⟨h1, h2, h3, h4, h5, ?_, h7, ?_, ?_, ?_, h11, ?_⟩
  · intro x a hx
    by_cases hxt : x = t
    · simp [hxt] at hx
    · simp [hxt] at hx
      exact h6 x a hx
  · intro _ hs
    simp at hs
  · intro x hx
    by_cases hxt : x = t
    · simp [hxt] at hx
    · simp [hxt] at hx
      exact h9 x hx
  · intro x hx hpos
    by_cases hxt : x = t
    · simp [hxt] at hx
    · simp [hxt] at hx
      exact h10 x hx hpos
  · intro x _ _
    simp

/-- The construction of a Mutex at a fresh address keeps the invariant. -/
theorem Inv.newMutex {w : World} (hinv : Inv w) (t : Tid) (a : Addr)
    (ht : w.pc t = .won) (ha : a ∉ w.heap.map Prod.snd) :
    Inv { w with heap := (w.epoch, a) :: w.heap,
                 pc := fun x => if x = t then .built a else w.pc x } := by
  obtain ⟨h1, h2, h3, h4, h5, h6, h7, h8, h9, h10, h11, h12⟩ := hinv
  have hwt : (w.pc t).isWinner = true := by simp [ht, Pc.isWinner]
  have hfresh : ∀ y ∈ w.heap, y.2 ≠ a := by
    intro y hy hya
    exact ha (List.mem_map.mpr ⟨y, hy, hya⟩)
  refine ⟨?_, ?_, ?_, h4, ?_, ?_, h7, h8, ?_, ?_, h11, ?_⟩
  · intro x hx
    simp only [List.mem_cons] at hx
    rcases hx with hx | hx
    · subst hx; exact Nat.le_refl _
    · exact h1 x hx
  · intro x hx y hy hxy
    simp only [List.mem_cons] at hx hy
    rcases hx with hx | hx <;> rcases hy with hy | hy
    · subst hx; subst hy; rfl
    · subst hx
      exact absurd hxy.symm (hfresh y hy)
    · subst hy
      exact absurd hxy (hfresh x hx)
    · exact h2 x hx y hy hxy
  · intro b hb
    simp only [List.map_cons, List.mem_cons]
    exact Or.inr (h3 b hb)
  · intro r hr b hb
    simp only [List.map_cons, List.mem_cons]
    exact Or.inr (h5 r hr b hb)
  · intro x b hx
    simp only [List.map_cons, List.mem_cons]
    by_cases hxt : x = t
    · simp [hxt] at hx
      exact Or.inl hx.symm
    · simp [hxt] at hx
      exact Or.inr (h6 x b hx)
  · intro x hx
    by_cases hxt : x = t
    · simp [hxt] at hx
    · simp [hxt] at hx
      exact h9 x hx
  · intro x hx hpos
    by_cases hxt : x = t
    · simp [hxt] at hx
    · simp [hxt] at hx
      exact h10 x hx hpos
  · intro x hx hs
    by_cases hxt : x = t
    · rw [hxt] at hs
      exact h12 t hwt hs
    · simp [hxt] at hx
      exact h12 x hx hs

/-- The store of the new pointer to `instance.mutex` keeps the invariant. -/
theorem Inv.storeMutex {w : World} (hinv : Inv w) (t : Tid) (a : Addr)
    (ht : w.pc t = .built a) :
    Inv { w with inst := { w.inst with mutex := some a },
                 pc := fun x => if x = t then .stored else w.pc x } := by
  obtain ⟨h1, h2, h3, h4, h5, h6, h7, h8, h9, h10, h11, h12⟩ := hinv
  have hwt : (w.pc t).isWinner = true := by simp [ht, Pc.isWinner]
  refine ⟨h1, h2, ?_, h4, h5, ?_, h7, ?_, ?_, ?_, h11, ?_⟩
  · intro b hb
    simp at hb
    subst hb
    exact h6 t a ht
  · intro x b hx
    by_cases hxt : x = t
    · simp [hxt] at hx
    · simp [hxt] at hx
      exact h6 x b hx
  · intro _ _
    simp
  · intro x _
    simp
  · intro x _ _
    simp
  · intro x hx hs
    by_cases hxt : x = t
    · rw [hxt] at hs
      exact h12 t hwt hs
    · simp [hxt] at hx
      exact h12 x hx hs

/-- The store of `INITIALIZED` keeps the invariant. -/
theorem Inv.publish {w : World} (hinv : Inv w) (t : Tid) (ht : w.pc t = .stored) :
    Inv { w with inst := { w.inst with state := .INITIALIZED },
                 pc := fun x => if x = t then .slowReturn else w.pc x } := by
  obtain ⟨h1, h2, h3, h4, h5, h6, h7, h8, h9, h10, h11, h12⟩ := hinv
  have hnn : w.inst.mutex ≠ none := h9 t ht
  refine ⟨h1, h2, h3, h4, h5, ?_, h7, ?_, ?_, ?_, h11, ?_⟩
  · intro x b hx
    by_cases hxt : x = t
    · simp [hxt] at hx
    · simp [hxt] at hx
      exact h6 x b hx
  · intro _ _
    exact hnn
  · intro x _
    exact hnn
  · intro x _ _
    exact hnn
  · intro x _ _
    simp

/-- The fork hook, run in the child on the forking thread, keeps the
invariant. -/
theorem Inv.fork {w : World} (hinv : Inv w) (t : Tid) :
    Inv { w with inst := w.inst.AfterFork,
                 pc := fun x => if x = t then w.pc t else .idle,
                 epoch := w.epoch + 1 } := by
  obtain ⟨h1, h2, h3, h4, h5, h6, h7, h8, h9, h10, h11, h12⟩ := hinv
  refine ⟨?_, h2, h3, ?_, h5, ?_, ?_, ?_, ?_, ?_, h11, ?_⟩
  · intro x hx
    exact Nat.le_succ_of_le (h1 x hx)
  · intro r hr
    exact Nat.le_succ_of_le (h4 r hr)
  · intro x b hx
    by_cases hxt : x = t
    · simp [hxt] at hx
      exact h6 t b hx
    · simp [hxt] at hx
  · intro x
    exact Nat.le_succ_of_le (h7 x)
  · intro _ hs
    simp [AfterForkState.AfterFork] at hs
  · intro x hx
    by_cases hxt : x = t
    · simp [hxt] at hx
      exact h9 t hx
    · simp [hxt] at hx
  · intro x hx hpos
    by_cases hxt : x = t
    · simp [hxt] at hx
      rw [hxt] at hpos
      exact h10 t hx hpos
    · simp [hxt] at hx
  · intro x _ hs
    have := h7 x
    simp at hs
    omega

theorem Inv.after_step {w : World} (hinv : Inv w) (e : Event) : Inv (w.step e) := by
  cases e with
  | load t =>
    simp only [World.step]
    split
    · split
      · next hs => exact Inv.enter hinv t .fastReturn rfl (fun _ => hs)
      · exact Inv.enter hinv t .atCas rfl (by simp)
    · exact hinv
  | fastReturn t =>
    simp only [World.step]
    split
    · next ht => exact Inv.doReturn hinv t (Or.inl ht)
    · exact hinv
  | cas t =>
    simp only [World.step]
    split
    · split
      · exact Inv.casWin hinv t
      · exact Inv.setPc hinv t .spin rfl (by simp)
    · exact hinv
  | newMutex t a =>
    simp only [World.step]
    split
    · next h => exact Inv.newMutex hinv t a h.1 h.2
    · exact hinv
  | storeMutex t =>
    simp only [World.step]
    split
    · next a ht => exact Inv.storeMutex hinv t a ht
    · exact hinv
  | publish t =>
    simp only [World.step]
    split
    · next ht => exact Inv.publish hinv t ht
    · exact hinv
  | spin t =>
    simp only [World.step]
    split
    · split
      · exact hinv
      · next hs =>
        exact Inv.setPc hinv t .slowReturn rfl (fun _ => by simpa using hs)
    · exact hinv
  | slowReturn t =>
    simp only [World.step]
    split
    · next ht => exact Inv.doReturn hinv t (Or.inr ht)
    · exact hinv
  | fork t => exact Inv.fork hinv t

theorem Inv.after_exec (evs : List Event) : ∀ w : World, Inv w → Inv (w.exec evs) := by
  induction evs with
  | nil => intro w hw; exact hw
  | cons e evs ih =>
    intro w hw
    exact ih _ (Inv.after_step hw e)

theorem Inv.at_reachable (evs : List Event) : Inv (World.init.exec evs) :=
  Inv.after_exec evs _ Inv.at_init

/-- No step removes a constructed Mutex: none is ever deleted. -/
theorem World.heap_step (w : World) (e : Event) (x : Nat × Addr) (hx : x ∈ w.heap) :
    x ∈ (w.step e).heap := by
  cases e with
  | load t =>
    simp only [World.step, World.enter]
    split
    · split <;> exact hx
    · exact hx
  | fastReturn t =>
    simp only [World.step, World.doReturn]
    split <;> exact hx
  | cas t =>
    simp only [World.step, World.setPc]
    split
    · split <;> exact hx
    · exact hx
  | newMutex t a =>
    simp only [World.step]
    split
    · exact List.mem_cons_of_mem _ hx
    · exact hx
  | storeMutex t =>
    simp only [World.step]
    split <;> exact hx
  | publish t =>
    simp only [World.step]
    split <;> exact hx
  | spin t =>
    simp only [World.step, World.setPc]
    split
    · split <;> exact hx
    · exact hx
  | slowReturn t =>
    simp only [World.step, World.doReturn]
    split <;> exact hx
  | fork t => exact hx

theorem World.heap_exec (evs : List Event) :
    ∀ (w : World) (x : Nat × Addr), x ∈ w.heap → x ∈ (w.exec evs).heap := by
  induction evs with
  | nil => intro w x hx; exact hx
  | cons e evs ih =>
    intro w x hx
    exact ih _ x (World.heap_step w e x hx)

/-- A step that is not a fork stays in the epoch. -/
theorem World.epoch_step (w : World) (e : Event) (he : e.isFork = false) :
    (w.step e).epoch = w.epoch := by
  cases e with
  | load t =>
    simp only [World.step, World.enter]
    split
    · split <;> rfl
    · rfl
  | fastReturn t =>
    simp only [World.step, World.doReturn]
    split <;> rfl
  | cas t =>
    simp only [World.step, World.setPc]
    split
    · split <;> rfl
    · rfl
  | newMutex t a =>
    simp only [World.step]
    split <;> rfl
  | storeMutex t =>
    simp only [World.step]
    split <;> rfl
  | publish t =>
    simp only [World.step]
    split <;> rfl
  | spin t =>
    simp only [World.step, World.setPc]
    split
    · split <;> rfl
    · rfl
  | slowReturn t =>
    simp only [World.step, World.doReturn]
    split <;> rfl
  | fork t => simp [Event.isFork] at he

theorem World.epoch_exec (evs : List Event) :
    ∀ w : World, (∀ e ∈ evs, e.isFork = false) → (w.exec evs).epoch = w.epoch := by
  induction evs with
  | nil => intro w _; rfl
  | cons e evs ih =>
    intro w h
    have h1 := ih (w.step e) (fun x hx => h x (List.mem_cons_of_mem _ hx))
    have h2 := World.epoch_step w e (h e (List.mem_cons_self _ _))
    show ((w.step e).exec evs).epoch = w.epoch
    rw [h1, h2]

/-! ## An epoch with no call carried over -/

theorem Clean.clean_start : Clean World.init := by
  constructor <;>
    simp [World.init, AfterForkState.staticInstance, Pc.isWinner, World.constructions]

theorem Clean.clean_move {w : World} (hc : Clean w) (t : Tid) (p : Pc) (st : Tid → Nat)
    (hp : p.isWinner = false)
    (hr : (p = .fastReturn ∨ p = .slowReturn) → w.inst.state = .INITIALIZED) :
    Clean { w with pc := fun x => if x = t then p else w.pc x, start := st } := by
  obtain ⟨c1, c2, c3, c4, c5, c6, c7, k1, k2, k3, k4, k5⟩ := hc
  have hnw : ∀ q : Pc, q.isWinner = true → p ≠ q := by
    intro q hq hpq
    rw [hpq, hq] at hp
    cases hp
  refine ⟨c1, ?_, ?_, ?_, c5, ?_, ?_, k1, ?_, ?_, ?_, k5⟩
  · intro x hx
    by_cases hxt : x = t
    · simp [hxt] at hx
      exact hr hx
    · simp [hxt] at hx
      exact c2 x hx
  · intro x hx
    by_cases hxt : x = t
    · simp [hxt, hp] at hx
    · simp [hxt] at hx
      exact c3 x hx
  · intro x y hx hy
    by_cases hxt : x = t
    · simp [hxt, hp] at hx
    · by_cases hyt : y = t
      · simp [hyt, hp] at hy
      · simp [hxt] at hx
        simp [hyt] at hy
        exact c4 x y hx hy
  · intro x hx
    by_cases hxt : x = t
    · simp [hxt] at hx
      exact absurd hx (hnw .stored rfl)
    · simp [hxt] at hx
      exact c6 x hx
  · intro x a hx
    by_cases hxt : x = t
    · simp [hxt] at hx
      exact absurd hx (hnw (.built a) rfl)
    · simp [hxt] at hx
      exact c7 x a hx
  · intro x hx
    by_cases hxt : x = t
    · simp [hxt] at hx
      exact absurd hx (hnw .won rfl)
    · simp [hxt] at hx
      exact k2 x hx
  · intro x a hx
    by_cases hxt : x = t
    · simp [hxt] at hx
      exact absurd hx (hnw (.built a) rfl)
    · simp [hxt] at hx
      exact k3 x a hx
  · intro x hx
    by_cases hxt : x = t
    · simp [hxt] at hx
      exact absurd hx (hnw .stored rfl)
    · simp [hxt] at hx
      exact k4 x hx

theorem Clean.clean_return {w : World} (hc : Clean w) (t : Tid)
    (ht : w.pc t = .fastReturn ∨ w.pc t = .slowReturn) : Clean (w.doReturn t) := by
  have hst := hc.pc_ret t ht
  obtain ⟨c1, c2, c3, c4, c5, c6, c7, k1, k2, k3, k4, k5⟩ :=
    Clean.clean_move hc t .idle w.start rfl (by simp)
  refine ⟨?_, c2, c3, c4, c5, c6, c7, k1, k2, k3, k4, k5⟩
  intro r hr he
  simp only [World.doReturn, List.mem_cons] at hr
  rcases hr with hr | hr
  · subst hr; exact ⟨rfl, hst⟩
  · exact hc.ret_cur r hr he

theorem Clean.clean_casWin {w : World} (hc : Clean w) (t : Tid)
    (hst : w.inst.state = .NOT_INITIALIZED) :
    Clean { w with inst := { w.inst with state := .IN_PROCESS },
                   pc := fun x => if x = t then .won else w.pc x } := by
  have hnoret : ∀ x, ¬ (w.pc x = .fastReturn ∨ w.pc x = .slowReturn) := by
    intro x hx
    have := hc.pc_ret x hx
    rw [hst] at this
    cases this
  have hnowin : ∀ x, (w.pc x).isWinner ≠ true := by
    intro x hx
    have := hc.pc_win x hx
    rw [hst] at this
    cases this
  obtain ⟨c1, c2, c3, c4, c5, c6, c7, k1, k2, k3, k4, k5⟩ := hc
  refine ⟨?_, ?_, ?_, ?_, ?_, ?_, ?_, ?_, ?_, ?_, ?_, ?_⟩
  · intro r hr he
    have := (c1 r hr he).2
    rw [hst] at this
    cases this
  · intro x hx
    by_cases hxt : x = t
    · simp [hxt] at hx
    · simp [hxt] at hx
      exact absurd hx (hnoret x)
  · intro x _
    rfl
  · intro x y hx hy
    by_cases hxt : x = t
    · by_cases hyt : y = t
      · rw [hxt, hyt]
      · simp [hyt] at hy
        exact absurd hy (hnowin y)
    · simp [hxt] at hx
      exact absurd hx (hnowin x)
  · intro _ hs
    simp at hs
  · intro x hx
    by_cases hxt : x = t
    · simp [hxt] at hx
    · simp [hxt] at hx
      exact absurd (by simp [hx, Pc.isWinner]) (hnowin x)
  · intro x a hx
    by_cases hxt : x = t
    · simp [hxt] at hx
    · simp [hxt] at hx
      exact absurd (by simp [hx, Pc.isWinner]) (hnowin x)
  · intro h
    simp at h
  · intro x _
    exact k1 hst
  · intro x a hx
    by_cases hxt : x = t
    · simp [hxt] at hx
    · simp [hxt] at hx
      exact absurd (by simp [hx, Pc.isWinner]) (hnowin x)
  · intro x hx
    by_cases hxt : x = t
    · simp [hxt] at hx
    · simp [hxt] at hx
      exact absurd (by simp [hx, Pc.isWinner]) (hnowin x)
  · intro _ h
    simp at h

theorem Clean.clean_newMutex {w : World} (hc : Clean w) (t : Tid) (a : Addr)
    (ht : w.pc t = .won) :
    Clean { w with heap := (w.epoch, a) :: w.heap,
                   pc := fun x => if x = t then .built a else w.pc x } := by
  obtain ⟨c1, c2, c3, c4, c5, c6, c7, k1, k2, k3, k4, k5⟩ := hc
  have hwt : (w.pc t).isWinner = true := by simp [ht, Pc.isWinner]
  have hst : w.inst.state = .IN_PROCESS := c3 t hwt
  have honly : ∀ x, x ≠ t → (w.pc x).isWinner ≠ true := by
    intro x hxt hx
    exact hxt (c4 x t hx hwt)
  have hone : ((((w.epoch, a) :: w.heap).filter (fun y => y.1 = w.epoch)).length) = 1 := by
    have h0 := k2 t ht
    simp only [World.constructions] at h0
    simp [List.filter_cons, h0]
  refine ⟨c1, ?_, ?_, ?_, ?_, ?_, ?_, ?_, ?_, ?_, ?_, ?_⟩
  · intro x hx
    by_cases hxt : x = t
    · simp [hxt] at hx
    · simp [hxt] at hx
      exact c2 x hx
  · intro x _
    exact hst
  · intro x y hx hy
    have hx2 : (w.pc x).isWinner = true := by
      by_cases hxt : x = t
      · rw [hxt]; exact hwt
      · simpa [hxt] using hx
    have hy2 : (w.pc y).isWinner = true := by
      by_cases hyt : y = t
      · rw [hyt]; exact hwt
      · simpa [hyt] using hy
    exact c4 x y hx2 hy2
  · intro _ hs
    simp [hst] at hs
  · intro x hx
    by_cases hxt : x = t
    · simp [hxt] at hx
    · simp [hxt] at hx
      exact absurd (by simp [hx, Pc.isWinner]) (honly x hxt)
  · intro x b hx
    by_cases hxt : x = t
    · simp [hxt] at hx
      subst hx
      exact List.mem_cons_self _ _
    · simp [hxt] at hx
      exact List.mem_cons_of_mem _ (c7 x b hx)
  · intro hs
    simp [hst] at hs
  · intro x hx
    by_cases hxt : x = t
    · simp [hxt] at hx
    · simp [hxt] at hx
      exact absurd (by simp [hx, Pc.isWinner]) (honly x hxt)
  · intro x b _
    exact hone
  · intro x _
    exact hone
  · intro _ _
    exact hone

theorem Clean.clean_storeMutex {w : World} (hc : Clean w) (t : Tid) (a : Addr)
    (ht : w.pc t = .built a) :
    Clean { w with inst := { w.inst with mutex := some a },
                   pc := fun x => if x = t then .stored else w.pc x } := by
  obtain ⟨c1, c2, c3, c4, c5, c6, c7, k1, k2, k3, k4, k5⟩ := hc
  have hwt : (w.pc t).isWinner = true := by simp [ht, Pc.isWinner]
  have hst : w.inst.state = .IN_PROCESS := c3 t hwt
  have hmem : (w.epoch, a) ∈ w.heap := c7 t a ht
  have hone := k3 t a ht
  refine ⟨?_, ?_, ?_, ?_, ?_, ?_, ?_, ?_, ?_, ?_, ?_, ?_⟩
  · intro r hr he
    have := (c1 r hr he).2
    rw [hst] at this
    cases this
  · intro x hx
    by_cases hxt : x = t
    · simp [hxt] at hx
    · simp [hxt] at hx
      exact c2 x hx
  · intro x _
    exact hst
  · intro x y hx hy
    have hx2 : (w.pc x).isWinner = true := by
      by_cases hxt : x = t
      · rw [hxt]; exact hwt
      · simpa [hxt] using hx
    have hy2 : (w.pc y).isWinner = true := by
      by_cases hyt : y = t
      · rw [hyt]; exact hwt
      · simpa [hyt] using hy
    exact c4 x y hx2 hy2
  · intro _ hs
    simp [hst] at hs
  · intro x _
    exact ⟨a, rfl, hmem⟩
  · intro x b hx
    by_cases hxt : x = t
    · simp [hxt] at hx
    · simp [hxt] at hx
      exact c7 x b hx
  · intro hs
    simp [hst] at hs
  · intro x hx
    by_cases hxt : x = t
    · simp [hxt] at hx
    · simp [hxt] at hx
      exact k2 x hx
  · intro x b _
    exact hone
  · intro x _
    exact hone
  · intro _ _
    exact hone

theorem Clean.clean_publish {w : World} (hc : Clean w) (t : Tid) (ht : w.pc t = .stored) :
    Clean { w with inst := { w.inst with state := .INITIALIZED },
                   pc := fun x => if x = t then .slowReturn else w.pc x } := by
  obtain ⟨c1, c2, c3, c4, c5, c6, c7, k1, k2, k3, k4, k5⟩ := hc
  have hwt : (w.pc t).isWinner = true := by simp [ht, Pc.isWinner]
  have hst : w.inst.state = .IN_PROCESS := c3 t hwt
  have honly : ∀ x, x ≠ t → (w.pc x).isWinner ≠ true := by
    intro x hxt hx
    exact hxt (c4 x t hx hwt)
  have hone := k4 t ht
  refine ⟨?_, ?_, ?_, ?_, ?_, ?_, ?_, ?_, ?_, ?_, ?_, ?_⟩
  · intro r hr he
    have := (c1 r hr he).2
    rw [hst] at this
    cases this
  · intro x _
    rfl
  · intro x hx
    by_cases hxt : x = t
    · simp [hxt, Pc.isWinner] at hx
    · simp [hxt] at hx
      exact absurd hx (honly x hxt)
  · intro x y hx hy
    by_cases hxt : x = t
    · simp [hxt, Pc.isWinner] at hx
    · simp [hxt] at hx
      exact absurd hx (honly x hxt)
  · intro _ _
    exact c6 t ht
  · intro x hx
    by_cases hxt : x = t
    · simp [hxt] at hx
    · simp [hxt] at hx
      exact absurd (by simp [hx, Pc.isWinner]) (honly x hxt)
  · intro x b hx
    by_cases hxt : x = t
    · simp [hxt] at hx
    · simp [hxt] at hx
      exact c7 x b hx
  · intro hs
    simp at hs
  · intro x hx
    by_cases hxt : x = t
    · simp [hxt] at hx
    · simp [hxt] at hx
      exact k2 x hx
  · intro x b _
    exact hone
  · intro x _
    exact hone
  · intro _ _
    exact hone

/-- The child of a fork taken outside of `GlobalForkSafeMutex` starts a clean
epoch. -/
theorem Clean.clean_fork {w : World} (hinv : Inv w) (t : Tid) (ht : w.pc t = .idle) :
    Clean (w.step (.fork t)) := by
  have hidle : ∀ x, (if x = t then w.pc t else Pc.idle) = Pc.idle := by
    intro x
    by_cases hxt : x = t <;> simp [hxt, ht]
  have hzero : (w.heap.filter (fun y => y.1 = w.epoch + 1)).length = 0 := by
    rw [List.length_eq_zero, List.filter_eq_nil_iff]
    intro y hy
    have := hinv.heap_epoch y hy
    simp
    omega
  refine ⟨?_, ?_, ?_, ?_, ?_, ?_, ?_, ?_, ?_, ?_, ?_, ?_⟩
  · intro r hr he
    have := hinv.ret_epoch r hr
    simp [World.step] at he
    omega
  · intro x hx
    simp [World.step, hidle] at hx
  · intro x hx
    simp [World.step, hidle, Pc.isWinner] at hx
  · intro x y hx
    simp [World.step, hidle, Pc.isWinner] at hx
  · intro _ hs
    simp [World.step, AfterForkState.AfterFork] at hs
  · intro x hx
    simp [World.step, hidle] at hx
  · intro x b hx
    simp [World.step, hidle] at hx
  · intro _
    exact hzero
  · intro x hx
    simp [World.step, hidle] at hx
  · intro x b hx
    simp [World.step, hidle] at hx
  · intro x hx
    simp [World.step, hidle] at hx
  · intro _ hs
    simp [World.step, AfterForkState.AfterFork] at hs

theorem Clean.clean_step {w : World} (hc : Clean w) (e : Event) (he : e.isFork = false) :
    Clean (w.step e) := by
  cases e with
  | load t =>
    simp only [World.step]
    split
    · split
      · next hs => exact Clean.clean_move hc t .fastReturn _ rfl (fun _ => hs)
      · exact Clean.clean_move hc t .atCas _ rfl (by simp)
    · exact hc
  | fastReturn t =>
    simp only [World.step]
    split
    · next ht => exact Clean.clean_return hc t (Or.inl ht)
    · exact hc
  | cas t =>
    simp only [World.step]
    split
    · split
      · next hs => exact Clean.clean_casWin hc t hs
      · exact Clean.clean_move hc t .spin w.start rfl (by simp)
    · exact hc
  | newMutex t a =>
    simp only [World.step]
    split
    · next h => exact Clean.clean_newMutex hc t a h.1
    · exact hc
  | storeMutex t =>
    simp only [World.step]
    split
    · next a ht => exact Clean.clean_storeMutex hc t a ht
    · exact hc
  | publish t =>
    simp only [World.step]
    split
    · next ht => exact Clean.clean_publish hc t ht
    · exact hc
  | spin t =>
    simp only [World.step]
    split
    · split
      · exact hc
      · next hs =>
        exact Clean.clean_move hc t .slowReturn w.start rfl (fun _ => by simpa using hs)
    · exact hc
  | slowReturn t =>
    simp only [World.step]
    split
    · next ht => exact Clean.clean_return hc t (Or.inr ht)
    · exact hc
  | fork t => simp [Event.isFork] at he

theorem Clean.clean_exec (evs : List Event) :
    ∀ w : World, Clean w → (∀ e ∈ evs, e.isFork = false) → Clean (w.exec evs) := by
  induction evs with
  | nil => intro w hw _; exact hw
  | cons e evs ih =>
    intro w hw h
    exact ih _ (Clean.clean_step hw e (h e (List.mem_cons_self _ _)))
      (fun x hx => h x (List.mem_cons_of_mem _ hx))

/-! ## The initial epoch -/

theorem InvInitial.initial_start : InvInitial World.init := by
  constructor <;> simp [World.init]

theorem InvInitial.initial_step {w : World} (hinv : InvInitial w) (e : Event) :
    InvInitial (w.step e) := by
  obtain ⟨h1, h2⟩ := hinv
  by_cases h0 : w.epoch = 0
  · obtain ⟨hi, hh, hp⟩ := h1 h0
    have hst : w.inst.state = .INITIALIZED := by rw [hi]; rfl
    have hmu : w.inst.mutex = none := by rw [hi]; rfl
    have hpc : ∀ t p, p ≠ .idle → p ≠ .fastReturn → w.pc t ≠ p := by
      intro t p hp1 hp2 h
      rcases hp t with h3 | h3
      · exact hp1 (h ▸ h3)
      · exact hp2 (h ▸ h3)
    have hset : ∀ t p, (p = .idle ∨ p = .fastReturn) →
        ∀ u, (if u = t then p else w.pc u) = .idle ∨ (if u = t then p else w.pc u) = .fastReturn := by
      intro t p hp1 u
      by_cases hut : u = t
      · simpa [hut] using hp1
      · simpa [hut] using hp u
    cases e with
    | load t =>
      simp only [World.step, hst, if_true, World.enter]
      split
      · exact ⟨fun _ => ⟨hi, hh, hset t _ (Or.inr rfl)⟩, h2⟩
      · exact ⟨h1, h2⟩
    | fastReturn t =>
      simp only [World.step, World.doReturn]
      split
      · refine ⟨fun _ => ⟨hi, hh, hset t _ (Or.inl rfl)⟩, ?_⟩
        intro r hr hr0
        simp only [List.mem_cons] at hr
        rcases hr with hr | hr
        · subst hr; exact hmu
        · exact h2 r hr hr0
      · exact ⟨h1, h2⟩
    | cas t =>
      simp only [World.step, hpc t .atCas (by simp) (by simp), if_false]
      exact ⟨h1, h2⟩
    | newMutex t a =>
      simp only [World.step, hpc t .won (by simp) (by simp), false_and, if_false]
      exact ⟨h1, h2⟩
    | storeMutex t =>
      simp only [World.step]
      split
      · next b hb => exact absurd hb (hpc t (.built b) (by simp) (by simp))
      · exact ⟨h1, h2⟩
    | publish t =>
      simp only [World.step, hpc t .stored (by simp) (by simp), if_false]
      exact ⟨h1, h2⟩
    | spin t =>
      simp only [World.step, hpc t .spin (by simp) (by simp), if_false]
      exact ⟨h1, h2⟩
    | slowReturn t =>
      simp only [World.step, hpc t .slowReturn (by simp) (by simp), if_false]
      exact ⟨h1, h2⟩
    | fork t =>
      refine ⟨fun h => ?_, h2⟩
      simp [World.step] at h
  · have hepoch : (w.step e).epoch ≠ 0 := by
      cases e with
      | load t =>
        simp only [World.step, World.enter]
        split
        · split <;> exact h0
        · exact h0
      | fastReturn t =>
        simp only [World.step, World.doReturn]
        split <;> exact h0
      | cas t =>
        simp only [World.step, World.setPc]
        split
        · split <;> exact h0
        · exact h0
      | newMutex t a =>
        simp only [World.step]
        split <;> exact h0
      | storeMutex t =>
        simp only [World.step]
        split <;> exact h0
      | publish t =>
        simp only [World.step]
        split <;> exact h0
      | spin t =>
        simp only [World.step, World.setPc]
        split
        · split <;> exact h0
        · exact h0
      | slowReturn t =>
        simp only [World.step, World.doReturn]
        split <;> exact h0
      | fork t => simp [World.step]
    refine ⟨fun h => absurd h hepoch, ?_⟩
    have hret : ∀ t r, r ∈ (w.doReturn t).returned → r.epoch = 0 → r.ptr = none := by
      intro t r hr hr0
      simp only [World.doReturn, List.mem_cons] at hr
      rcases hr with hr | hr
      · subst hr; exact absurd hr0 h0
      · exact h2 r hr hr0
    cases e with
    | load t =>
      simp only [World.step, World.enter]
      split
      · split <;> exact h2
      · exact h2
    | fastReturn t =>
      simp only [World.step]
      split
      · exact hret t
      · exact h2
    | cas t =>
      simp only [World.step, World.setPc]
      split
      · split <;> exact h2
      · exact h2
    | newMutex t a =>
      simp only [World.step]
      split <;> exact h2
    | storeMutex t =>
      simp only [World.step]
      split <;> exact h2
    | publish t =>
      simp only [World.step]
      split <;> exact h2
    | spin t =>
      simp only [World.step, World.setPc]
      split
      · split <;> exact h2
      · exact h2
    | slowReturn t =>
      simp only [World.step]
      split
      · exact hret t
      · exact h2
    | fork t => exact h2

theorem InvInitial.initial_exec (evs : List Event) :
    ∀ w : World, InvInitial w → InvInitial (w.exec evs) := by
  induction evs with
  | nil => intro w hw; exact hw
  | cons e evs ih =>
    intro w hw
    exact ih _ (InvInitial.initial_step hw e)

theorem InvInitial.initial_reachable (evs : List Event) : InvInitial (World.init.exec evs) :=
  InvInitial.initial_exec evs _ InvInitial.initial_start


/-! ## The epoch begun by a fork taken outside of the function -/

theorem World.afterFork_epoch (w : World) (t : Tid) (post : List Event)
    (hpost : ∀ e ∈ post, e.isFork = false) : (w.afterFork t post).epoch = w.epoch + 1 := by
  unfold World.afterFork
  rw [World.epoch_exec post _ hpost]
  rfl

theorem World.afterFork_clean (pre : List Event) (t : Tid) (post : List Event)
    (hidle : (World.init.exec pre).pc t = .idle) (hpost : ∀ e ∈ post, e.isFork = false) :
    Clean ((World.init.exec pre).afterFork t post) :=
  Clean.clean_exec post _ (Clean.clean_fork (Inv.at_reachable pre) t hidle) hpost

theorem World.afterFork_inv (pre : List Event) (t : Tid) (post : List Event) :
    Inv ((World.init.exec pre).afterFork t post) :=
  Inv.after_exec post _ (Inv.after_step (Inv.at_reachable pre) (.fork t))

theorem World.afterFork_heap (w : World) (t : Tid) (post : List Event) (x : Nat × Addr)
    (hx : x ∈ w.heap) : x ∈ (w.afterFork t post).heap :=
  World.heap_exec post _ x (World.heap_step w (.fork t) x hx)

/-- In the child of a fork taken outside of the function, before any other
fork, a call that has returned in the epoch has returned the current pointer,
which points to the one Mutex constructed in the epoch, at an address that
held no Mutex before the fork. -/
theorem World.afterFork_return (pre : List Event) (t : Tid) (post : List Event)
    (hidle : (World.init.exec pre).pc t = .idle) (hpost : ∀ e ∈ post, e.isFork = false)
    (r : Ret) (hr : r ∈ ((World.init.exec pre).afterFork t post).returned)
    (he : r.epoch = (World.init.exec pre).epoch + 1) :
    r.ptr = ((World.init.exec pre).afterFork t post).inst.mutex ∧
    ((World.init.exec pre).afterFork t post).constructions ((World.init.exec pre).epoch + 1) = 1 ∧
    ∃ a, r.ptr = some a ∧
      ((World.init.exec pre).epoch + 1, a) ∈ ((World.init.exec pre).afterFork t post).heap ∧
      a ∉ (World.init.exec pre).heap.map Prod.snd := by
  have hc := World.afterFork_clean pre t post hidle hpost
  have hi := World.afterFork_inv pre t post
  have hs := Inv.at_reachable pre
  have hep := World.afterFork_epoch (World.init.exec pre) t post hpost
  have hcur := hc.ret_cur r hr (by rw [hep]; exact he)
  have hpos : 0 < ((World.init.exec pre).afterFork t post).epoch := by rw [hep]; omega
  obtain ⟨a, hma, hmem⟩ := hc.init_heap hpos hcur.2
  have hk := hc.k_done hpos hcur.2
  rw [hep] at hmem hk
  refine ⟨hcur.1, hk, a, by rw [hcur.1, hma], hmem, ?_⟩
  intro hold
  obtain ⟨y, hy, hya⟩ := List.mem_map.mp hold
  have h1 := hs.heap_epoch y hy
  have h2 := hi.heap_uniq y (World.afterFork_heap _ t post y hy) _ hmem hya
  simp only at h2
  omega

/-! ## The Mutex and its Guards -/

/-- C3: in every state reached by constructions, `Lock()` calls that return,
`TryLock()` calls and destructions of live Guards, in any order, at most one
live Guard is bound to a given Mutex, that is, in the owning state for it. -/
theorem at_most_one_owning_guard (debug : Bool) (evs : List MutexEvent) (m : Addr) :
    (Sys.exec debug Sys.init evs).guards.count ⟨some m⟩ ≤ 1 := by
  have h := (SysInv.of_reachable debug evs).count m
  rw [h]
  split <;> simp

/-- C4: on a constructed Mutex, `TryLock()` returns an empty Guard and leaves
the heap as it was when the mutex is held; when the mutex is free it returns a
Guard bound to this Mutex and leaves the mutex held, nothing else changed. -/
theorem TryLock_spec (debug : Bool) (this : Addr) (h : Heap) (impl : Mutex.Impl)
    (hthis : h this = some ⟨some impl⟩) :
    (h.held this = true → Mutex.TryLock debug this h = .ok (Mutex.Guard.empty, h)) ∧
    (h.held this = false →
      ∃ h1, Mutex.TryLock debug this h = .ok (⟨some this⟩, h1) ∧ h1.held this = true ∧
        h1.unlocks this = h.unlocks this ∧ ∀ x, x ≠ this → h1 x = h x) := by
  rw [Heap.held_of_lookup h this impl hthis]
  constructor
  · intro hl
    exact Mutex.TryLock_held debug this h impl hthis hl
  · intro hl
    refine ⟨_, Mutex.TryLock_free debug this h impl hthis hl, ?_, ?_, ?_⟩
    · rw [Heap.held_store_same]
    · rw [Heap.unlocks_store_same, Heap.unlocks_of_lookup h this impl hthis]
    · intro x hx
      exact Heap.store_other _ _ _ _ hx

theorem TryLock_spec_witness :
    (Heap.store (fun _ => none) 3 Mutex.ctor) 3 = some ⟨some ⟨⟨false, 0⟩⟩⟩ ∧
    ∃ h1, Mutex.TryLock true 3 (Heap.store (fun _ => none) 3 Mutex.ctor)
        = .ok (⟨some 3⟩, h1) ∧ h1.held 3 = true ∧
      h1.unlocks 3 = (Heap.store (fun _ => none) 3 Mutex.ctor).unlocks 3 ∧
      ∀ x, x ≠ 3 → h1 x = (Heap.store (fun _ => none) 3 Mutex.ctor) x :=
  ⟨by decide,
   (TryLock_spec true 3 (Heap.store (fun _ => none) 3 Mutex.ctor) ⟨⟨false, 0⟩⟩
      (by decide)).2 (by decide)⟩

/-- C5: in every reachable state, destroying a live Guard bound to a Mutex
succeeds, calls `unlock()` on its mutex exactly once (the counter of unlocks
goes up by one), leaves the mutex free and the other Mutexes untouched, and a
`TryLock()` made right after returns a Guard bound to the Mutex; destroying
an empty Guard leaves every heap as it is. -/
theorem destroy_releases_once (debug : Bool) (evs : List MutexEvent) (i : Nat) (m : Addr)
    (hg : (Sys.exec debug Sys.init evs).guards[i]? = some ⟨some m⟩) :
    (∃ h1, Mutex.Guard.destroy debug ⟨some m⟩ (Sys.exec debug Sys.init evs).heap = .ok h1 ∧
      (Sys.step debug (Sys.exec debug Sys.init evs) (.destroy i)).heap = h1 ∧
      h1.unlocks m = (Sys.exec debug Sys.init evs).heap.unlocks m + 1 ∧
      h1.held m = false ∧
      (∀ x, x ≠ m → h1 x = (Sys.exec debug Sys.init evs).heap x) ∧
      ∃ h2, Mutex.TryLock debug m h1 = .ok (⟨some m⟩, h2) ∧ h2.held m = true) ∧
    ∀ h : Heap, Mutex.Guard.destroy debug Mutex.Guard.empty h = .ok h := by
  have hinv := SysInv.of_reachable debug evs
  have hheld := SysInv.held_of_mem hinv m (List.getElem?_mem hg)
  obtain ⟨impl, hm, hl⟩ := Heap.lookup_of_held _ _ hheld
  have hd := Mutex.deleter_held debug m _ impl hm hl
  refine ⟨⟨(Sys.exec debug Sys.init evs).heap.store m
      ⟨some ⟨⟨false, impl.mutex_.unlocks + 1⟩⟩⟩, ?_, ?_, ?_, ?_, ?_, ?_⟩, ?_⟩
  · simpa [Mutex.Guard.destroy] using hd
  · simp only [Sys.step, hinv.fault, hg, Mutex.Guard.destroy, hd]
  · rw [Heap.unlocks_store_same, Heap.unlocks_of_lookup _ m impl hm]
  · rw [Heap.held_store_same]
  · intro x hx
    exact Heap.store_other _ _ _ _ hx
  · refine ⟨_, Mutex.TryLock_free debug m _ ⟨⟨false, impl.mutex_.unlocks + 1⟩⟩
      (Heap.store_same _ _ _) rfl, ?_⟩
    rw [Heap.held_store_same]
  · intro h
    rfl

theorem destroy_releases_once_witness :
    (Sys.exec true Sys.init [.construct 3, .lock 3, .tryLock 3]).guards[0]? = some ⟨some 3⟩ ∧
    ∃ h1, Mutex.Guard.destroy true ⟨some 3⟩
        (Sys.exec true Sys.init [.construct 3, .lock 3, .tryLock 3]).heap = .ok h1 ∧
      h1.held 3 = false :=
  ⟨by decide,
   (destroy_releases_once true [.construct 3, .lock 3, .tryLock 3] 0 3 (by decide)).1.imp
     (fun _ h => ⟨h.1, h.2.2.2.1⟩)⟩

/-- C6: a `Lock()` that returns hands out a Guard bound to this Mutex (never
an empty one) and leaves the mutex held; and on a constructed Mutex whose
mutex is free `Lock()` does return. -/
theorem Lock_spec (debug : Bool) (this : Addr) (h : Heap) :
    (∀ g h1, Mutex.Lock debug this h = .ok (g, h1) →
      g = ⟨some this⟩ ∧ g ≠ Mutex.Guard.empty ∧ h1.held this = true) ∧
    (∀ impl : Mutex.Impl, h this = some ⟨some impl⟩ → h.held this = false →
      ∃ h1, Mutex.Lock debug this h = .ok (⟨some this⟩, h1) ∧ h1.held this = true) := by
  constructor
  · intro g h1 hr
    obtain ⟨hg, hh, _⟩ := Mutex.Lock_ok debug this h h1 g hr
    refine ⟨hg, ?_, hh⟩
    rw [hg]
    simp [Mutex.Guard.empty]
  · intro impl hthis hfree
    rw [Heap.held_of_lookup h this impl hthis] at hfree
    refine ⟨_, Mutex.Lock_free debug this h impl hthis hfree, ?_⟩
    rw [Heap.held_store_same]

theorem Lock_spec_witness :
    ∃ h1, Mutex.Lock true 3 (Heap.store (fun _ => none) 3 Mutex.ctor) = .ok (⟨some 3⟩, h1) ∧
      h1.held 3 = true :=
  (Lock_spec true 3 (Heap.store (fun _ => none) 3 Mutex.ctor)).2 ⟨⟨false, 0⟩⟩
    (by decide) (by decide)

/-- C10: in every reachable state, the mutex of a Mutex to which a live Guard
is bound is held, so in the deleter of that Guard the `try_lock()` of the
debug check fails, the check passes, the deleter of a debug build returns
without aborting, and the process has not stopped after the destruction. -/
theorem owning_guard_destroy_passes_dcheck (debug : Bool) (evs : List MutexEvent) (i : Nat)
    (m : Addr) (hg : (Sys.exec debug Sys.init evs).guards[i]? = some ⟨some m⟩) :
    (Sys.exec debug Sys.init evs).heap.held m = true ∧
    (∃ impl : Mutex.Impl, (Sys.exec debug Sys.init evs).heap m = some ⟨some impl⟩ ∧
      impl.mutex_.try_lock.1 = false) ∧
    (∃ h1, Mutex.Guard.deleter true m (Sys.exec debug Sys.init evs).heap = .ok h1) ∧
    (Sys.step debug (Sys.exec debug Sys.init evs) (.destroy i)).fault = none := by
  have hinv := SysInv.of_reachable debug evs
  have hheld := SysInv.held_of_mem hinv m (List.getElem?_mem hg)
  obtain ⟨impl, hm, hl⟩ := Heap.lookup_of_held _ _ hheld
  refine ⟨hheld, ⟨impl, hm, ?_⟩, ⟨_, Mutex.deleter_held true m _ impl hm hl⟩, ?_⟩
  · simp [StdMutex.try_lock, hl]
  · exact (SysInv.of_step debug _ (.destroy i) hinv).fault

theorem owning_guard_destroy_passes_dcheck_witness :
    (Sys.exec true Sys.init [.construct 3, .tryLock 3, .construct 4, .lock 4]).guards[1]?
      = some ⟨some 4⟩ ∧
    (Sys.exec true Sys.init [.construct 3, .tryLock 3, .construct 4, .lock 4]).heap.held 4
      = true :=
  ⟨by decide,
   (owning_guard_destroy_passes_dcheck true [.construct 3, .tryLock 3, .construct 4, .lock 4]
      1 4 (by decide)).1⟩

/-! ## The singleton -/

/-- C1, as stated, fails: in a process that has not forked a call takes the
fast path and returns the null pointer. -/
theorem GlobalForkSafeMutex_null_before_fork :
    ¬ ∀ (evs : List Event) (r : Ret), r ∈ (World.init.exec evs).returned → r.ptr ≠ none := by
  intro h
  exact h [.load 0, .fastReturn 0] ⟨0, 0, 0, none⟩ (by decide) rfl

/-- C1, amended: in every reachable state, a call that began after a fork
hook had run (in a child process) and has returned has returned a non-null
pointer, and a call that has returned before any fork has returned the null
pointer. -/
theorem GlobalForkSafeMutex_nonnull_in_child (evs : List Event) (r : Ret)
    (hr : r ∈ (World.init.exec evs).returned) :
    (0 < r.start → r.ptr ≠ none) ∧ (r.epoch = 0 → r.ptr = none) :=
  ⟨(Inv.at_reachable evs).ret_nonnull r hr, (InvInitial.initial_reachable evs).rets r hr⟩

theorem GlobalForkSafeMutex_nonnull_in_child_witness :
    (⟨1, 1, 0, some 7⟩ : Ret) ∈ (World.init.exec [.fork 0, .load 0, .cas 0, .newMutex 0 7,
      .storeMutex 0, .publish 0, .slowReturn 0]).returned ∧
    (some 7 : Option Addr) ≠ none :=
  ⟨by decide,
   (GlobalForkSafeMutex_nonnull_in_child [.fork 0, .load 0, .cas 0, .newMutex 0 7,
      .storeMutex 0, .publish 0, .slowReturn 0] ⟨1, 1, 0, some 7⟩ (by decide)).1 (by decide)⟩

/-- C2, as stated, fails: in the initial epoch calls return although no
Mutex has been constructed. -/
theorem GlobalForkSafeMutex_no_construction_before_fork :
    ¬ ∀ (post : List Event), (∀ e ∈ post, e.isFork = false) →
      ∀ r ∈ (World.init.exec post).returned, r.epoch = 0 →
        (World.init.exec post).constructions 0 = 1 := by
  intro h
  have h1 := h [.load 0, .load 1, .fastReturn 0, .fastReturn 1] (by decide)
    ⟨0, 0, 0, none⟩ (by decide) rfl
  revert h1
  decide

/-- C2, amended: in the epoch begun by a fork taken outside of the function
(every call of the epoch starts in it), whatever the interleaving of the
steps of the calls, the calls that have returned have returned the same
pointer and exactly one Mutex has been constructed in the epoch once a call
has returned; in the initial epoch every call that has returned has returned
the null pointer and no Mutex has been constructed. -/
theorem GlobalForkSafeMutex_first_calls (pre : List Event) (t : Tid) (post : List Event)
    (hidle : (World.init.exec pre).pc t = .idle) (hpost : ∀ e ∈ post, e.isFork = false) :
    (∀ x ∈ ((World.init.exec pre).afterFork t post).returned,
      ∀ y ∈ ((World.init.exec pre).afterFork t post).returned,
        x.epoch = (World.init.exec pre).epoch + 1 →
        y.epoch = (World.init.exec pre).epoch + 1 → x.ptr = y.ptr) ∧
    (∀ r ∈ ((World.init.exec pre).afterFork t post).returned,
      r.epoch = (World.init.exec pre).epoch + 1 →
      ((World.init.exec pre).afterFork t post).constructions
        ((World.init.exec pre).epoch + 1) = 1) ∧
    (∀ r ∈ (World.init.exec post).returned, r.ptr = none) ∧
    (World.init.exec post).constructions 0 = 0 := by
  refine ⟨?_, ?_, ?_, ?_⟩
  · intro x hx y hy hxe hye
    rw [(World.afterFork_return pre t post hidle hpost x hx hxe).1,
      (World.afterFork_return pre t post hidle hpost y hy hye).1]
  · intro r hr he
    exact (World.afterFork_return pre t post hidle hpost r hr he).2.1
  · intro r hr
    have hep : (World.init.exec post).epoch = 0 := World.epoch_exec post _ hpost
    have hle := (Inv.at_reachable post).ret_epoch r hr
    exact (InvInitial.initial_reachable post).rets r hr (by omega)
  · have hep : (World.init.exec post).epoch = 0 := World.epoch_exec post _ hpost
    obtain ⟨_, hh, _⟩ := (InvInitial.initial_reachable post).start hep
    simp [World.constructions, hh]

theorem GlobalForkSafeMutex_first_calls_witness :
    (World.init.exec []).pc 0 = .idle ∧
    (⟨1, 1, 1, some 7⟩ : Ret) ∈ ((World.init.exec []).afterFork 0 [.load 0, .cas 0, .load 1,
      .cas 1, .newMutex 0 7, .storeMutex 0, .publish 0, .spin 1, .slowReturn 1,
      .slowReturn 0]).returned ∧
    ((World.init.exec []).afterFork 0 [.load 0, .cas 0, .load 1, .cas 1, .newMutex 0 7,
      .storeMutex 0, .publish 0, .spin 1, .slowReturn 1, .slowReturn 0]).constructions
        ((World.init.exec []).epoch + 1) = 1 :=
  ⟨by decide, by decide,
   (GlobalForkSafeMutex_first_calls [] 0 [.load 0, .cas 0, .load 1, .cas 1, .newMutex 0 7,
      .storeMutex 0, .publish 0, .spin 1, .slowReturn 1, .slowReturn 0]
      (by decide) (by decide)).2.1 ⟨1, 1, 1, some 7⟩ (by decide) (by decide)⟩

/-- C7, as stated, fails: a thread that forks between the load of line 91
and the return of line 92 returns, in the child, the pointer stored before
the fork; it is the first call that returns after the hook. -/
theorem GlobalForkSafeMutex_stale_after_fork :
    ¬ ∀ (pre : List Event) (t : Tid) (post : List Event) (r : Ret),
      (∀ e ∈ post, e.isFork = false) →
      r ∈ ((World.init.exec pre).afterFork t post).returned →
      r.epoch = (World.init.exec pre).epoch + 1 →
      r.ptr ≠ (World.init.exec pre).inst.mutex := by
  intro h
  exact h [.fork 0, .load 0, .cas 0, .newMutex 0 7, .storeMutex 0, .publish 0, .slowReturn 0,
    .load 1] 1 [.fastReturn 1] ⟨2, 1, 1, some 7⟩ (by decide) (by decide) (by decide)
    (by decide)

/-- C7, amended: from any reachable state, after a fork taken by a thread
that is outside of `GlobalForkSafeMutex`, every call that returns in the
epoch of the child, so the first one too, returns a non-null pointer to a
Mutex constructed in that epoch, at an address that held no Mutex before the
fork; it differs from the pointer stored before the fork and from every
pointer returned before the fork. -/
theorem GlobalForkSafeMutex_after_fork_fresh (pre : List Event) (t : Tid)
    (post : List Event) (r : Ret)
    (hidle : (World.init.exec pre).pc t = .idle) (hpost : ∀ e ∈ post, e.isFork = false)
    (hr : r ∈ ((World.init.exec pre).afterFork t post).returned)
    (he : r.epoch = (World.init.exec pre).epoch + 1) :
    (∃ a, r.ptr = some a ∧
      ((World.init.exec pre).epoch + 1, a) ∈ ((World.init.exec pre).afterFork t post).heap ∧
      a ∉ (World.init.exec pre).heap.map Prod.snd) ∧
    r.ptr ≠ (World.init.exec pre).inst.mutex ∧
    ∀ r0 ∈ (World.init.exec pre).returned, r0.ptr ≠ r.ptr := by
  have hs : Inv (World.init.exec pre) := Inv.at_reachable pre
  obtain ⟨_, _, a, hqa, hmem, hnew⟩ := World.afterFork_return pre t post hidle hpost r hr he
  refine ⟨⟨a, hqa, hmem, hnew⟩, ?_, ?_⟩
  · intro hp
    exact hnew (hs.mutex_heap a (by rw [← hp, hqa]))
  · intro r0 hr0 hp
    exact hnew (hs.ret_heap r0 hr0 a (by rw [hp, hqa]))

theorem GlobalForkSafeMutex_after_fork_fresh_witness :
    (World.init.exec [.fork 0, .load 0, .cas 0, .newMutex 0 7, .storeMutex 0, .publish 0,
      .slowReturn 0]).inst.mutex = some 7 ∧
    (⟨2, 2, 0, some 8⟩ : Ret) ∈ ((World.init.exec [.fork 0, .load 0, .cas 0, .newMutex 0 7,
      .storeMutex 0, .publish 0, .slowReturn 0]).afterFork 0 [.load 0, .cas 0, .newMutex 0 8,
      .storeMutex 0, .publish 0, .slowReturn 0]).returned ∧
    (some 8 : Option Addr) ≠ (World.init.exec [.fork 0, .load 0, .cas 0, .newMutex 0 7,
      .storeMutex 0, .publish 0, .slowReturn 0]).inst.mutex :=
  ⟨by decide, by decide,
   (GlobalForkSafeMutex_after_fork_fresh [.fork 0, .load 0, .cas 0, .newMutex 0 7,
      .storeMutex 0, .publish 0, .slowReturn 0] 0 [.load 0, .cas 0, .newMutex 0 8,
      .storeMutex 0, .publish 0, .slowReturn 0] ⟨2, 2, 0, some 8⟩
      (by decide) (by decide) (by decide) (by decide)).2.1⟩

/-- C8, as stated, fails: a thread forks between the load of line 91 and the
return of line 92 and returns the old pointer in the child; a call begun in
the child then constructs a Mutex and returns the new pointer in the same
epoch. -/
theorem GlobalForkSafeMutex_two_pointers_in_epoch :
    ¬ ∀ (evs : List Event) (x y : Ret), x ∈ (World.init.exec evs).returned →
      y ∈ (World.init.exec evs).returned → x.epoch = y.epoch → x.ptr = y.ptr := by
  intro h
  have h1 := h [.fork 0, .load 0, .cas 0, .newMutex 0 7, .storeMutex 0, .publish 0,
    .slowReturn 0, .load 1, .fork 1, .fastReturn 1, .load 2, .cas 2, .newMutex 2 8,
    .storeMutex 2, .publish 2, .slowReturn 2] ⟨2, 1, 1, some 7⟩ ⟨2, 2, 2, some 8⟩
    (by decide) (by decide) rfl
  revert h1
  decide

/-- C8, amended: in the initial epoch, and in the epoch begun by a fork taken
by a thread that is outside of `GlobalForkSafeMutex`, two calls that have
returned in the epoch have returned the same pointer. -/
theorem GlobalForkSafeMutex_same_epoch_same_pointer (pre : List Event) (t : Tid)
    (post : List Event) (x y : Ret)
    (hidle : (World.init.exec pre).pc t = .idle) (hpost : ∀ e ∈ post, e.isFork = false) :
    (x ∈ ((World.init.exec pre).afterFork t post).returned →
      y ∈ ((World.init.exec pre).afterFork t post).returned →
      x.epoch = (World.init.exec pre).epoch + 1 →
      y.epoch = (World.init.exec pre).epoch + 1 → x.ptr = y.ptr) ∧
    (x ∈ (World.init.exec post).returned → y ∈ (World.init.exec post).returned →
      x.ptr = y.ptr) := by
  constructor
  · intro hx hy hxe hye
    rw [(World.afterFork_return pre t post hidle hpost x hx hxe).1,
      (World.afterFork_return pre t post hidle hpost y hy hye).1]
  · intro hx hy
    have hc := Clean.clean_exec post _ Clean.clean_start hpost
    have hep : (World.init.exec post).epoch = 0 := World.epoch_exec post _ hpost
    have hxe := (Inv.at_reachable post).ret_epoch x hx
    have hye := (Inv.at_reachable post).ret_epoch y hy
    rw [(hc.ret_cur x hx (by omega)).1, (hc.ret_cur y hy (by omega)).1]

theorem GlobalForkSafeMutex_same_epoch_same_pointer_witness :
    (World.init.exec [.fork 0, .load 0, .cas 0, .newMutex 0 7, .storeMutex 0, .publish 0,
      .slowReturn 0]).pc 0 = .idle ∧
    (⟨2, 2, 1, some 8⟩ : Ret) ∈ ((World.init.exec [.fork 0, .load 0, .cas 0, .newMutex 0 7,
      .storeMutex 0, .publish 0, .slowReturn 0]).afterFork 0 [.load 0, .cas 0, .load 1,
      .cas 1, .newMutex 0 8, .storeMutex 0, .publish 0, .spin 1, .slowReturn 1,
      .slowReturn 0, .load 2, .fastReturn 2]).returned ∧
    (⟨2, 2, 2, some 8⟩ : Ret) ∈ ((World.init.exec [.fork 0, .load 0, .cas 0, .newMutex 0 7,
      .storeMutex 0, .publish 0, .slowReturn 0]).afterFork 0 [.load 0, .cas 0, .load 1,
      .cas 1, .newMutex 0 8, .storeMutex 0, .publish 0, .spin 1, .slowReturn 1,
      .slowReturn 0, .load 2, .fastReturn 2]).returned ∧
    (some 8 : Option Addr) = some 8 :=
  ⟨by decide, by decide, by decide,
   (GlobalForkSafeMutex_same_epoch_same_pointer [.fork 0, .load 0, .cas 0, .newMutex 0 7,
      .storeMutex 0, .publish 0, .slowReturn 0] 0 [.load 0, .cas 0, .load 1,
      .cas 1, .newMutex 0 8, .storeMutex 0, .publish 0, .spin 1, .slowReturn 1,
      .slowReturn 0, .load 2, .fastReturn 2] ⟨2, 2, 1, some 8⟩ ⟨2, 2, 2, some 8⟩
      (by decide) (by decide)).1 (by decide) (by decide) rfl rfl⟩

/-- C9, as stated, fails twice. A fork taken while another thread is between
its exchange and its publish runs the hook with the tag `IN_PROCESS`: the
tag goes from `IN_PROCESS` to `NOT_INITIALIZED`. A thread that forks between
its store of the pointer and its publish then stores `INITIALIZED` over the
tag reset by the hook: the tag goes from `NOT_INITIALIZED` to `INITIALIZED`.
Neither is one of the three transitions. -/
theorem tag_leaves_spec_transitions :
    ((World.init.exec [.fork 0, .load 0, .cas 0]).inst.state = .IN_PROCESS ∧
      ((World.init.exec [.fork 0, .load 0, .cas 0]).step (.fork 1)).inst.state
        = .NOT_INITIALIZED) ∧
    ((World.init.exec [.fork 0, .load 0, .cas 0, .newMutex 0 7, .storeMutex 0,
        .fork 0]).inst.state = .NOT_INITIALIZED ∧
      ((World.init.exec [.fork 0, .load 0, .cas 0, .newMutex 0 7, .storeMutex 0,
        .fork 0]).step (.publish 0)).inst.state = .INITIALIZED) ∧
    ¬ ∀ (evs : List Event) (e : Event),
      ((World.init.exec evs).step e).inst.state ≠ (World.init.exec evs).inst.state →
      specTransition (World.init.exec evs).inst.state
        ((World.init.exec evs).step e).inst.state = true := by
  refine ⟨by decide, by decide, ?_⟩
  intro h
  have h1 := h [.fork 0, .load 0, .cas 0] (.fork 1) (by decide)
  revert h1
  decide

/-- C9, amended: from a reachable state, a step that changes the tag is the
winning exchange of a thread (`NOT_INITIALIZED` to `IN_PROCESS`), the publish
by a thread that has stored its new pointer (`IN_PROCESS` to `INITIALIZED`,
or `NOT_INITIALIZED` to `INITIALIZED` when the call began in an earlier epoch
and was carried through a fork, whose hook reset the tag), or the fork hook,
which sets `NOT_INITIALIZED` whatever the tag was (`INITIALIZED` or
`IN_PROCESS`); a failed exchange writes nothing and sends the thread
spinning, and no step of `GlobalForkSafeMutex` by a spinning thread writes
the tag or the pointer. -/
theorem tag_transitions (evs : List Event) (e : Event) :
    (((World.init.exec evs).step e).inst.state ≠ (World.init.exec evs).inst.state →
      (∃ t, e = .cas t ∧ (World.init.exec evs).pc t = .atCas ∧
        (World.init.exec evs).inst.state = .NOT_INITIALIZED ∧
        ((World.init.exec evs).step e).inst.state = .IN_PROCESS) ∨
      (∃ t, e = .publish t ∧ (World.init.exec evs).pc t = .stored ∧
        (World.init.exec evs).inst.state = .IN_PROCESS ∧
        ((World.init.exec evs).step e).inst.state = .INITIALIZED) ∨
      (∃ t, e = .publish t ∧ (World.init.exec evs).pc t = .stored ∧
        (World.init.exec evs).start t < (World.init.exec evs).epoch ∧
        (World.init.exec evs).inst.state = .NOT_INITIALIZED ∧
        ((World.init.exec evs).step e).inst.state = .INITIALIZED) ∨
      (∃ t, e = .fork t ∧
        ((World.init.exec evs).inst.state = .INITIALIZED ∨
          (World.init.exec evs).inst.state = .IN_PROCESS) ∧
        ((World.init.exec evs).step e).inst.state = .NOT_INITIALIZED)) ∧
    (∀ t, (World.init.exec evs).pc t = .atCas →
      (World.init.exec evs).inst.state ≠ .NOT_INITIALIZED →
      ((World.init.exec evs).step (.cas t)).inst = (World.init.exec evs).inst ∧
      ((World.init.exec evs).step (.cas t)).pc t = .spin) ∧
    (∀ t, (World.init.exec evs).pc t = .spin → e.caller = some t →
      ((World.init.exec evs).step e).inst = (World.init.exec evs).inst) := by
  have hinv := Inv.at_reachable evs
  generalize World.init.exec evs = w at hinv ⊢
  refine ⟨?_, ?_, ?_⟩
  · intro hch
    cases e with
    | load t =>
      exfalso; apply hch
      simp only [World.step, World.enter]
      split
      · split <;> rfl
      · rfl
    | fastReturn t =>
      exfalso; apply hch
      simp only [World.step, World.doReturn]
      split <;> rfl
    | cas t =>
      by_cases ht : w.pc t = .atCas
      · by_cases hs : w.inst.state = .NOT_INITIALIZED
        · refine Or.inl ⟨t, rfl, ht, hs, ?_⟩
          simp [World.step, ht, hs]
        · exfalso; apply hch
          simp [World.step, ht, hs, World.setPc]
      · exfalso; apply hch
        simp [World.step, ht]
    | newMutex t a =>
      exfalso; apply hch
      simp only [World.step]
      split <;> rfl
    | storeMutex t =>
      exfalso; apply hch
      simp only [World.step]
      split <;> rfl
    | publish t =>
      by_cases ht : w.pc t = .stored
      · have hnew : (w.step (.publish t)).inst.state = .INITIALIZED := by
          simp [World.step, ht]
        cases hs : w.inst.state with
        | INITIALIZED =>
          exfalso; apply hch
          rw [hnew, hs]
        | IN_PROCESS => exact Or.inr (Or.inl ⟨t, rfl, ht, rfl, hnew⟩)
        | NOT_INITIALIZED =>
          have hne : w.start t ≠ w.epoch := by
            intro heq
            exact hinv.win_tag t (by simp [ht, Pc.isWinner]) heq hs
          have hle := hinv.start_le t
          exact Or.inr (Or.inr (Or.inl ⟨t, rfl, ht, by omega, rfl, hnew⟩))
      · exfalso; apply hch
        simp [World.step, ht]
    | spin t =>
      exfalso; apply hch
      simp only [World.step, World.setPc]
      split
      · split <;> rfl
      · rfl
    | slowReturn t =>
      exfalso; apply hch
      simp only [World.step, World.doReturn]
      split <;> rfl
    | fork t =>
      refine Or.inr (Or.inr (Or.inr ⟨t, rfl, ?_, rfl⟩))
      cases hs : w.inst.state with
      | INITIALIZED => exact Or.inl rfl
      | IN_PROCESS => exact Or.inr rfl
      | NOT_INITIALIZED =>
        exfalso; apply hch
        simp [World.step, AfterForkState.AfterFork, hs]
  · intro t ht hs
    simp [World.step, ht, hs, World.setPc]
  · intro t ht he
    cases e with
    | fork u => simp [Event.caller] at he
    | load u =>
      simp only [Event.caller, Option.some.injEq] at he
      subst he
      simp [World.step, ht]
    | fastReturn u =>
      simp only [Event.caller, Option.some.injEq] at he
      subst he
      simp [World.step, ht]
    | cas u =>
      simp only [Event.caller, Option.some.injEq] at he
      subst he
      simp [World.step, ht]
    | newMutex u a =>
      simp only [Event.caller, Option.some.injEq] at he
      subst he
      simp [World.step, ht]
    | storeMutex u =>
      simp only [Event.caller, Option.some.injEq] at he
      subst he
      simp [World.step, ht]
    | publish u =>
      simp only [Event.caller, Option.some.injEq] at he
      subst he
      simp [World.step, ht]
    | spin u =>
      simp only [Event.caller, Option.some.injEq] at he
      subst he
      simp only [World.step, World.setPc, ht, if_true]
      split <;> rfl
    | slowReturn u =>
      simp only [Event.caller, Option.some.injEq] at he
      subst he
      simp [World.step, ht]

theorem tag_transitions_witness :
    ((World.init.exec [.fork 0, .load 0, .cas 0, .newMutex 0 7, .storeMutex 0, .fork 0]).step (.publish 0)).inst.state
      ≠ (World.init.exec [.fork 0, .load 0, .cas 0, .newMutex 0 7, .storeMutex 0, .fork 0]).inst.state ∧
    ((∃ t, Event.publish 0 = .cas t ∧
        (World.init.exec [.fork 0, .load 0, .cas 0, .newMutex 0 7, .storeMutex 0, .fork 0]).pc t = .atCas ∧
        (World.init.exec [.fork 0, .load 0, .cas 0, .newMutex 0 7, .storeMutex 0, .fork 0]).inst.state
          = .NOT_INITIALIZED ∧
        ((World.init.exec [.fork 0, .load 0, .cas 0, .newMutex 0 7, .storeMutex 0, .fork 0]).step (.publish 0)).inst.state = .IN_PROCESS) ∨
      (∃ t, Event.publish 0 = .publish t ∧
        (World.init.exec [.fork 0, .load 0, .cas 0, .newMutex 0 7, .storeMutex 0, .fork 0]).pc t = .stored ∧
        (World.init.exec [.fork 0, .load 0, .cas 0, .newMutex 0 7, .storeMutex 0, .fork 0]).inst.state
          = .IN_PROCESS ∧
        ((World.init.exec [.fork 0, .load 0, .cas 0, .newMutex 0 7, .storeMutex 0, .fork 0]).step (.publish 0)).inst.state = .INITIALIZED) ∨
      (∃ t, Event.publish 0 = .publish t ∧
        (World.init.exec [.fork 0, .load 0, .cas 0, .newMutex 0 7, .storeMutex 0, .fork 0]).pc t = .stored ∧
        (World.init.exec [.fork 0, .load 0, .cas 0, .newMutex 0 7, .storeMutex 0, .fork 0]).start t
          < (World.init.exec [.fork 0, .load 0, .cas 0, .newMutex 0 7, .storeMutex 0, .fork 0]).epoch ∧
        (World.init.exec [.fork 0, .load 0, .cas 0, .newMutex 0 7, .storeMutex 0, .fork 0]).inst.state
          = .NOT_INITIALIZED ∧
        ((World.init.exec [.fork 0, .load 0, .cas 0, .newMutex 0 7, .storeMutex 0, .fork 0]).step (.publish 0)).inst.state = .INITIALIZED) ∨
      (∃ t, Event.publish 0 = .fork t ∧
        ((World.init.exec [.fork 0, .load 0, .cas 0, .newMutex 0 7, .storeMutex 0, .fork 0]).inst.state
            = .INITIALIZED ∨
          (World.init.exec [.fork 0, .load 0, .cas 0, .newMutex 0 7, .storeMutex 0, .fork 0]).inst.state
            = .IN_PROCESS) ∧
        ((World.init.exec [.fork 0, .load 0, .cas 0, .newMutex 0 7, .storeMutex 0, .fork 0]).step (.publish 0)).inst.state = .NOT_INITIALIZED)) :=
  ⟨by decide,
   (tag_transitions [.fork 0, .load 0, .cas 0, .newMutex 0 7, .storeMutex 0, .fork 0]
      (.publish 0)).1 (by decide)⟩

end arrow.util
